/-
Verification of the `bilanzieren` CSV row-tagging tool.

Shallow embedding of the repository's core data transformations:
  * `src/pandas/__init__.py` — the minimal pandas-like tabular store
    (`Series`, `DataFrame`, `DataFrame_from_rows`, `read_csv`, `to_csv`);
  * `src/helpers.py` — `most_common`, `try_read_csv`, `keyword_mask`,
    `ensure_tag_columns`, `untagged_mask`;
  * `src/streamlit_app.py` — the search- and tag-button handlers.

Text is modelled as `List Char` (`Str`), numbers as exact rationals `ℚ`
(the code only parses and prints decimal literals, so the rational a
decimal string denotes is the faithful value model).  Python standard
library pieces the code calls (`str` methods, `float()`, the `csv`
module, `csv.Sniffer`) are modelled charwise below, restricted where
noted to the fragments the repository exercises.
-/
import Mathlib

set_option linter.unusedVariables false

namespace Bilanzieren

/-- Python strings, modelled as lists of characters. -/
abbrev Str := List Char

/-- Convert a Lean string literal to the `Str` model. -/
def strOf (s : String) : Str := s.toList

/-- Python `str.isspace`-style whitespace (the characters `str.strip()` and
`str.split()` treat as whitespace that occur in this code's inputs). -/
def isSpace (c : Char) : Bool :=
  c = ' ' ∨ c = '\t' ∨ c = '\n' ∨ c = '\r' ∨ c = '\x0b' ∨ c = '\x0c'

/-- Python `str.strip()` with no argument: drop whitespace at both ends. -/
def pyStrip (s : Str) : Str :=
  ((s.dropWhile isSpace).reverse.dropWhile isSpace).reverse

/-- One character of Python `str.upper()`: the case table restricted to
ASCII letters and the German umlauts occurring in the stop-word set
(Python's full Unicode case mapping agrees with this on every character
these inputs use). -/
def pyUpperChar (c : Char) : Char :=
  if 'a' ≤ c ∧ c ≤ 'z' then Char.ofNat (c.toNat - 32)
  else if c = 'ä' then 'Ä' else if c = 'ö' then 'Ö' else if c = 'ü' then 'Ü'
  else c

/-- Python `str.upper()` (charwise; see `pyUpperChar`). -/
def pyUpper (s : Str) : Str := s.map pyUpperChar

/-- One character of Python `str.lower()` (mirror of `pyUpperChar`). -/
def pyLowerChar (c : Char) : Char :=
  if 'A' ≤ c ∧ c ≤ 'Z' then Char.ofNat (c.toNat + 32)
  else if c = 'Ä' then 'ä' else if c = 'Ö' then 'ö' else if c = 'Ü' then 'ü'
  else c

/-- Python `str.lower()` (charwise). -/
def pyLower (s : Str) : Str := s.map pyLowerChar

/-- Python `str.replace(old, new)` for one-character `old` and `new`
(the code only replaces the decimal separator, a single character). -/
def pyReplaceChar (old new : Char) (s : Str) : Str :=
  s.map (fun c => if c = old then new else c)

/-- Test whether the first list is a leading segment of the second. -/
def startsWith : Str → Str → Bool
  | [], _ => true
  | _ :: _, [] => false
  | p :: ps, c :: cs => p = c && startsWith ps cs

/-- Python `pat in s`: literal (non-regex) substring containment. -/
def containsSub (s pat : Str) : Bool :=
  s.tails.any (fun t => startsWith pat t)

/-- Value of a string of decimal digits, most significant first. -/
def digitsVal (s : Str) : ℕ :=
  s.foldl (fun a c => a * 10 + (c.toNat - 48)) 0

/-- Every character is an ASCII decimal digit. -/
def allDigits (s : Str) : Bool := s.all (fun c => '0' ≤ c ∧ c ≤ '9')

/-- ASCII decimal digit test. -/
def isDigitC (c : Char) : Bool := '0' ≤ c ∧ c ≤ '9'

/-- Leading `+`/`-` of a float literal: the sign factor and the rest. -/
def splitSign (cs : Str) : ℤ × Str :=
  if cs.head? = some '+' then (1, cs.tail)
  else if cs.head? = some '-' then (-1, cs.tail)
  else (1, cs)

/-- Fraction part after the integer digits: on a leading `'.'`, the
digit run after it and the remainder; otherwise no fraction digits. -/
def fracSplit (cs1 : Str) : Str × Str :=
  if cs1.head? = some '.' then
    (cs1.tail.takeWhile isDigitC, cs1.tail.dropWhile isDigitC)
  else ([], cs1)

/-- Exponent sign: `true` for a negative exponent, with the rest. -/
def expSign (r : Str) : Bool × Str :=
  if r.head? = some '+' then (false, r.tail)
  else if r.head? = some '-' then (true, r.tail)
  else (false, r)

/-- Apply a parsed exponent tail to the mantissa fraction `num / den`;
`none` when the exponent digits are missing or followed by junk. -/
def expApply (num : ℤ) (den : ℕ) (r : Str) : Option ℚ :=
  let neg := (expSign r).1
  let r1 := (expSign r).2
  let eds := r1.takeWhile isDigitC
  let rest := r1.dropWhile isDigitC
  if eds = [] ∨ rest ≠ [] then none
  else if neg then some (mkRat num (den * 10 ^ digitsVal eds))
  else some (mkRat (num * 10 ^ digitsVal eds) den)

/-- Python `float(v)`: parse an optionally signed decimal literal with
optional fraction and exponent, ignoring surrounding whitespace, into
the exact rational it denotes — the explicit fraction
`sign * (intDigits * 10^#frac + fracDigits) / 10^#frac`, exponent
applied.  (The `inf`/`nan`/underscore forms `float` also accepts never
arise from this repository's CSV fields and are out of scope of the
model.)  `none` models `ValueError`. -/
def pyFloat? (s : Str) : Option ℚ :=
  let cs0 := pyStrip s
  let sgn := (splitSign cs0).1
  let cs := (splitSign cs0).2
  let intPart := cs.takeWhile isDigitC
  let cs1 := cs.dropWhile isDigitC
  let fracPart := (fracSplit cs1).1
  let cs2 := (fracSplit cs1).2
  if intPart = [] ∧ fracPart = [] then none
  else
    let num : ℤ := sgn *
      (digitsVal intPart * 10 ^ fracPart.length + digitsVal fracPart)
    let den : ℕ := 10 ^ fracPart.length
    match cs2 with
    | [] => some (mkRat num den)
    | e :: r =>
      if e = 'e' ∨ e = 'E' then expApply num den r
      else none

/-- A cell of the tabular store: `None`, a Python string, or a float
(modelled as an exact rational, see the header comment). -/
inductive Cell where
  | null : Cell
  | str : Str → Cell
  | num : ℚ → Cell
deriving DecidableEq, Repr

/-- The `DataFrame` of `src/pandas/__init__.py`: insertion-ordered named
columns (`self.columns` ordering `self._data`), each a list of cells. -/
structure DataFrame where
  cols : List (Str × List Cell)
deriving DecidableEq, Repr

namespace DataFrame

/-- Column lookup, `self._data[col]`; `none` models the `KeyError`
raised by `DataFrame.__getitem__` on a missing column name. -/
def getCol? (df : DataFrame) (c : Str) : Option (List Cell) :=
  (df.cols.find? (fun p => p.1 = c)).map Prod.snd

/-- Membership test `col in df.columns`. -/
def hasCol (df : DataFrame) (c : Str) : Bool :=
  df.cols.any (fun p => p.1 = c)

/-- Property `DataFrame.n_rows`: length of the first column, `0` when empty. -/
def nRows (df : DataFrame) : ℕ :=
  match df.cols with
  | [] => 0
  | (_, col) :: _ => col.length

/-- Column names in order (`self.columns`). -/
def names (df : DataFrame) : List Str := df.cols.map Prod.fst

/-- Well-formed store: distinct column names and the row-count
invariant (every column has `n_rows` entries). -/
def WF (df : DataFrame) : Prop :=
  df.names.Nodup ∧ ∀ p ∈ df.cols, p.2.length = df.nRows

instance (df : DataFrame) : Decidable df.WF := by
  unfold WF; infer_instance

end DataFrame

/-! ### CSV text layer

The repository parses and emits CSV through Python's `csv` module
(stdlib, not repository code).  Modelled from the spec: "standard CSV
quoting", restricted here to unquoted fields — every concrete input in
the repository's tests is quote-free, and the round-trip theorems carry
a side condition keeping emitted fields quote-free. -/

/-- Split a character list at every occurrence of `sep`; an empty input
yields one empty field, like Python `"".split(sep)` → `[""]`. -/
def splitOnC (sep : Char) : Str → List Str
  | [] => [[]]
  | c :: cs =>
    match splitOnC sep cs with
    | [] => if c = sep then [[], []] else [[c]]
    | f :: fs => if c = sep then [] :: f :: fs else (c :: f) :: fs

/-- Join with a separator, inverse of `splitOnC` on separator-free parts. -/
def intercalateC (sep : Char) : List Str → Str
  | [] => []
  | [f] => f
  | f :: fs => f ++ sep :: intercalateC sep fs

/-- Physical lines the `csv.reader` iterates: split on newlines (carriage
returns erased, matching universal-newline decoding of `\r\n` endings)
and drop the empty trailer a final newline produces. -/
def csvLines (text : Str) : List Str :=
  let parts := splitOnC '\n' (text.filter (fun c => c ≠ '\r'))
  if parts.getLast? = some [] then parts.dropLast else parts

/-- One parsed CSV record: `csv.reader` yields `[]` for a blank line,
otherwise the line split on the delimiter. -/
def csvRecord (sep : Char) (line : Str) : List Str :=
  if line = [] then [] else splitOnC sep line

/-- Field conversion of `DataFrame_from_rows` (`src/pandas/__init__.py`
lines 140–149): empty field → `None`; otherwise replace the decimal
separator with `.` (when it is not already `.`) and try `float`; on
`ValueError` keep the (replaced) string. -/
def convertField (decimal : Char) (val : Str) : Cell :=
  if val = [] then .null
  else
    let v := if decimal ≠ '.' then pyReplaceChar decimal '.' val else val
    match pyFloat? v with
    | some q => .num q
    | none => .str v

/-- Cells one data row contributes to column `h`: the converted values at
every position of `zip(headers, row)` whose header is `h` (`zip`
truncates at the shorter list, so a short row contributes nothing to the
trailing columns and surplus fields are dropped). -/
def rowContrib (decimal : Char) (headers row : List Str) (h : Str) : List Cell :=
  (headers.zip row).filterMap
    (fun p => if p.1 = h then some (convertField decimal p.2) else none)

/-- Position of the first occurrence of `h` (length if absent). -/
def idxOf (h : Str) : List Str → ℕ
  | [] => 0
  | a :: t => if a = h then 0 else idxOf h t + 1

/-- First-occurrence deduplication, the key order of the Python dict
comprehension `{h: [] for h in headers}`. -/
def uniqKeys : List Str → List Str
  | [] => []
  | h :: t => h :: (uniqKeys t).filter (fun x => x ≠ h)

/-- Embedding of `DataFrame_from_rows(headers, rows, decimal)`
(`src/pandas/__init__.py` lines 136–150). -/
def DataFrame_from_rows (headers : List Str) (rows : List (List Str))
    (decimal : Char) : DataFrame :=
  ⟨(uniqKeys headers).map
    (fun h => (h, rows.flatMap (fun r => rowContrib decimal headers r h)))⟩

/-- Embedding of `read_csv(file, sep, decimal)` (`src/pandas/__init__.py`
lines 153–167) on the file's decoded text. -/
def read_csv (text : Str) (sep : Char) (decimal : Char) : DataFrame :=
  let rows := (csvLines text).map (csvRecord sep)
  match rows with
  | [] => ⟨[]⟩
  | headers :: body => DataFrame_from_rows headers body decimal

/-- Occurrences of a character in a line. -/
def countOcc (c : Char) (l : Str) : ℕ := (l.filter (fun x => x = c)).length

/-- A delimiter candidate is consistent when it occurs a fixed positive
number of times on every sampled line. -/
def consistentDelim (ls : List Str) (c : Char) : Bool :=
  match ls with
  | [] => false
  | l :: rest =>
    let n := countOcc c l
    decide (0 < n) && rest.all (fun l2 => countOcc c l2 = n)

/-- Modelled from the spec: `csv.Sniffer().sniff(sample, delimiters=";,")`
(Python stdlib, not repository code).  The spec's decision rule sniffs
the delimiter among `{';', ','}`; a candidate wins when its per-line
occurrence count is constant and positive over the sample, the stdlib's
preference order trying `','` first; no winner models the Sniffer's
"could not determine delimiter" error. -/
def sniff? (sample : Str) : Option Char :=
  let ls := csvLines sample
  if consistentDelim ls ',' then some ','
  else if consistentDelim ls ';' then some ';'
  else none

/-- Embedding of `try_read_csv` (`src/helpers.py` lines 49–58): sniff the
dialect on a 4096-byte prefix (chars coincide with bytes on the ASCII
inputs in scope), pick `','` decimals for `';'` fields and vice versa,
and parse; `none` models the Sniffer's exception propagating. -/
def try_read_csv (text : Str) : Option DataFrame :=
  let sample := text.take 4096
  match sniff? sample with
  | none => none
  | some sep =>
    let decimal := if sep = ';' then ',' else '.'
    some (read_csv text sep decimal)

/-! ### Printing numbers, `str(float)`

Python's `str` of a float prints the shortest decimal that reads back to
the same value; on the exact-rational model this is the exact decimal
expansion.  The fraction printer carries fuel (`fracFuel` digits): a
rational whose expansion does not terminate within the fuel has no
counterpart among the doubles this models, and the theorems about
printing carry the termination side condition `decRepr`. -/

/-- Decimal digits of a natural number, most significant first, via
fuelled division by 10 (`natReprAux (n+1) n` has enough fuel). -/
def natReprAux : ℕ → ℕ → Str
  | 0, _ => []
  | f + 1, n =>
    if n = 0 then []
    else natReprAux f (n / 10) ++ [Char.ofNat (48 + n % 10)]

/-- Decimal representation of a natural number. -/
def natRepr (n : ℕ) : Str :=
  if n = 0 then ['0'] else natReprAux (n + 1) n

/-- Digit budget for the fraction printer. -/
def fracFuel : ℕ := 40

/-- Long division: successive decimal digits of `r / d` for a remainder
`0 ≤ r < d`; `none` when the expansion does not terminate within the
fuel. -/
def fracDigitsN : ℕ → ℕ → ℕ → Option Str
  | 0, r, _ => if r = 0 then some [] else none
  | f + 1, r, d =>
    if r = 0 then some []
    else
      let r10 := r * 10
      (fracDigitsN f (r10 % d) d).map
        (fun ds => Char.ofNat (48 + r10 / d) :: ds)

/-- Exact decimal printer for a rational, when its expansion terminates
within the fuel: sign, integer digits, `'.'`, fraction digits (at least
one, like Python's `str(2.0) = "2.0"`). -/
def pyStrRat? (q : ℚ) : Option Str :=
  let n := q.num.natAbs
  let d := q.den
  let sgn : Str := if q.num < 0 then ['-'] else []
  if n % d = 0 then some (sgn ++ natRepr (n / d) ++ ['.', '0'])
  else
    (fracDigitsN fracFuel (n % d) d).map
      (fun ds => sgn ++ natRepr (n / d) ++ '.' :: ds)

/-- The rationals whose printing terminates (all values the repository's
number pipeline produces satisfy this). -/
def decRepr (q : ℚ) : Bool := (pyStrRat? q).isSome

/-- Total printer: the exact decimal when it terminates, otherwise the
integer digits alone (never consulted under `decRepr`). -/
def pyStrRat (q : ℚ) : Str :=
  (pyStrRat? q).getD
    ((if q.num < 0 then ['-'] else []) ++ natRepr (q.num.natAbs / q.den))

/-! ### Helper functions of `src/helpers.py` -/

/-- Python `str(x)` as `Series.astype(str)` performs it
(`src/pandas/__init__.py` lines 33–36): `None` → `""`, strings kept,
floats printed by `pyStrRat` below. -/
def cellAstype (c : Cell) : Str :=
  match c with
  | .null => []
  | .str s => s
  | .num q => pyStrRat q

/-- Embedding of `ensure_tag_columns` (`src/helpers.py` lines 64–68):
for each of `Category`, `Subcategory` absent from the columns, append a
full-length column of empty strings (`df[col] = ""` broadcasts over
`n_rows` and appends the new name). -/
def ensure_tag_columns (df : DataFrame) : DataFrame :=
  let add := fun (d : DataFrame) (c : Str) =>
    if d.hasCol c then d
    else ⟨d.cols ++ [(c, List.replicate d.nRows (Cell.str []))]⟩
  add (add df (strOf "Category")) (strOf "Subcategory")

/-- Row predicate of `untagged_mask`: the `Category` value after
`fillna("")`, `astype(str)` and `.str.strip()` equals `""`. -/
def untaggedCell (c : Cell) : Bool :=
  pyStrip (cellAstype c) = []

/-- Embedding of `untagged_mask` (`src/helpers.py` lines 70–72); `none`
models the `KeyError` from `df["Category"]` on a missing column. -/
def untagged_mask (df : DataFrame) : Option (List Bool) :=
  (df.getCol? (strOf "Category")).map (List.map untaggedCell)

/-- Embedding of `keyword_mask` (`src/helpers.py` lines 60–62):
case-insensitive literal substring match on the `astype(str)` values
(after `astype(str)` no cell is null, so `na=False` never fires). -/
def keyword_mask (col : List Cell) (kw : Str) : List Bool :=
  col.map (fun c => containsSub (pyLower (cellAstype c)) (pyLower kw))

/-- Search-button handler (`src/streamlit_app.py` lines 120–124):
mask = `untagged_mask(df) & keyword_mask(df[search_col], keyword)` when
the keyword is non-empty (Python truthiness), else `untagged_mask(df)`
alone; the column is only read in the non-empty branch. -/
def search_mask (df : DataFrame) (searchCol kw : Str) : Option (List Bool) :=
  (untagged_mask df).bind (fun base =>
    if kw = [] then some base
    else (df.getCol? searchCol).map
      (fun col => List.zipWith and base (keyword_mask col kw)))

/-- Write `v` into the cells selected by the mask, keep the rest. -/
def applyMask (mask : List Bool) (v : Cell) (col : List Cell) : List Cell :=
  List.zipWith (fun m c => if m then v else c) mask col

/-- Masked single-column assignment `df.loc[mask, col] = v`.  Modelled
from the spec: boolean-mask row selection with in-place cell assignment
on an existing column (the handler runs after `ensure_tag_columns`, so
`Category`/`Subcategory` are present); rows where the mask is true
receive `v`, the rest keep their cell. -/
def setMasked (df : DataFrame) (mask : List Bool) (col : Str) (v : Cell) :
    DataFrame :=
  ⟨df.cols.map (fun p =>
    if p.1 = col then (p.1, applyMask mask v p.2) else p)⟩

/-- Number of true entries (`mask.sum()`). -/
def countTrue (mask : List Bool) : ℕ := (mask.filter id).length

/-- Tag-button handler (`src/streamlit_app.py` lines 144–150): when
`cat and sub and mask.any()` (Python truthiness: both strings non-empty
before stripping, mask has a true entry), write the stripped category
and subcategory into the masked rows and report `mask.sum()`; otherwise
nothing happens and no count is reported (`0`). -/
def tagRows (df : DataFrame) (mask : List Bool) (cat sub : Str) :
    DataFrame × ℕ :=
  if cat ≠ [] ∧ sub ≠ [] ∧ mask.any id then
    (setMasked (setMasked df mask (strOf "Category") (.str (pyStrip cat)))
       mask (strOf "Subcategory") (.str (pyStrip sub)),
     countTrue mask)
  else (df, 0)

/-! ### Tokenizer and frequency counter (`most_common`) -/

/-- Python regex `\w` for the characters these inputs use: ASCII
letters, digits, underscore, and the non-ASCII letters (Python's
Unicode `\w` covers the accented letters of the stop-word set; no
non-ASCII punctuation occurs in scope). -/
def isWordChar (c : Char) : Bool :=
  ('A' ≤ c ∧ c ≤ 'Z') ∨ ('a' ≤ c ∧ c ≤ 'z') ∨ ('0' ≤ c ∧ c ≤ '9') ∨
    c = '_' ∨ 128 ≤ c.toNat

/-- Python `str.split()` with no argument: split on runs of whitespace,
no empty tokens.  The accumulator holds the current token reversed. -/
def splitWsAux : Str → Str → List Str
  | [], acc => if acc = [] then [] else [acc.reverse]
  | c :: cs, acc =>
    if isSpace c then
      if acc = [] then splitWsAux cs [] else acc.reverse :: splitWsAux cs []
    else splitWsAux cs (c :: acc)

/-- Python `str.split()` with no argument. -/
def splitWs (s : Str) : List Str := splitWsAux s []

/-- Stop-word set `STOPWORDS = GER_STOP | ENG_STOP` (`src/helpers.py`
lines 19–26). -/
def STOPWORDS : List Str :=
  [strOf "UND", strOf "FÜR", strOf "FUR", strOf "VON", strOf "DER",
   strOf "DIE", strOf "MIT", strOf "AUF", strOf "IM", strOf "AM",
   strOf "DEN", strOf "EIN", strOf "EINE", strOf "DES", strOf "IN",
   strOf "AN",
   strOf "AND", strOf "THE", strOf "TO", strOf "FOR", strOf "OF",
   strOf "AT", strOf "ON", strOf "BY", strOf "MY", strOf "PAY"]

/-- Substitution step of `normalise`: `re.sub(r"[^\w\s]", " ", ·)` —
every character that is neither a word character nor whitespace becomes
a single space. -/
def subNonWord (s : Str) : Str :=
  s.map (fun c => if isWordChar c ∨ isSpace c then c else ' ')

/-- Inner `normalise(txt)` of `most_common` (`src/helpers.py` lines
31–33): uppercase `str(txt)`, destroy punctuation, split on whitespace,
keep tokens that are no stop-word and at least `min_len` long. -/
def normalise (minLen : ℕ) (txt : Str) : List Str :=
  (splitWs (subNonWord (pyUpper txt))).filter
    (fun t => t ∉ STOPWORDS ∧ minLen ≤ t.length)

/-- Counter update: bump the token's count, inserting new tokens at the
end (Python `Counter` preserves first-insertion order). -/
def bagUpdate (bag : List (Str × ℕ)) (t : Str) : List (Str × ℕ) :=
  match bag with
  | [] => [(t, 1)]
  | (w, c) :: rest =>
    if w = t then (w, c + 1) :: rest else (w, c) :: bagUpdate rest t

/-- Token bag of a column after dropping nulls and normalising each cell
(`bag.update(tokens)` over `df[col].dropna().map(normalise)`). -/
def tokenBag (col : List Cell) (minLen : ℕ) : List (Str × ℕ) :=
  ((col.filterMap (fun c => match c with | .null => none | c => some c)).map
      (fun c => normalise minLen (cellAstype c))).foldl
    (fun b ts => ts.foldl bagUpdate b) []

/-- Stable descending insertion by count: an element goes after every
element of greater-or-equal count, preserving first-insertion order on
ties, which is how `Counter.most_common` (via stable sorting) breaks
them. -/
def insDesc (x : Str × ℕ) : List (Str × ℕ) → List (Str × ℕ)
  | [] => [x]
  | y :: ys => if x.2 ≤ y.2 then y :: insDesc x ys else x :: y :: ys

/-- Stable sort by descending count (`Counter.most_common`): elements
are inserted in first-insertion order, each after its equals. -/
def sortDesc (l : List (Str × ℕ)) : List (Str × ℕ) :=
  l.foldl (fun acc x => insDesc x acc) []

/-- Embedding of `most_common(df, col, k, min_len)` (`src/helpers.py`
lines 29–47) applied to the column's cells: rows `(keyword, count,
share)` for the top `k` bag entries, `share = count / total` over the
whole bag; empty bag → empty result. -/
def most_common (col : List Cell) (k : ℕ) (minLen : ℕ) :
    List (Str × ℕ × ℚ) :=
  let bag := tokenBag col minLen
  if bag = [] then []
  else
    let total := (bag.map Prod.snd).sum
    ((sortDesc bag).take k).map (fun p => (p.1, p.2, mkRat (p.2 : ℤ) total))

/-! ### Serialization (`DataFrame.to_csv`)

The writer is Python's `csv.writer` (stdlib).  Modelled from the spec:
"`,` as separator and standard CSV quoting, header included, no index
column" — a field is quoted when it contains the delimiter, a quote or a
newline, quotes doubling inside; each record ends in the writer's
`\r\n`. -/

/-- Characters forcing `QUOTE_MINIMAL` quoting of a field. -/
def needsQuote (s : Str) : Bool :=
  s.any (fun c => c = ',' ∨ c = '"' ∨ c = '\n' ∨ c = '\r')

/-- A single written field: quoted with doubled quotes when needed. -/
def writeField (s : Str) : Str :=
  if needsQuote s then
    '"' :: (s.flatMap (fun c => if c = '"' then ['"', '"'] else [c])) ++ ['"']
  else s

/-- Text `csv.writer` puts in a cell: `None` → empty, strings as-is,
floats via `str` (`none` when printing exceeds the digit fuel). -/
def cellCsv? (c : Cell) : Option Str :=
  match c with
  | .null => some []
  | .str s => some s
  | .num q => pyStrRat? q

/-- Sequence an option out of each list element. -/
def seqOpt : List (Option Str) → Option (List Str)
  | [] => some []
  | o :: os => o.bind (fun s => (seqOpt os).map (fun ss => s :: ss))

/-- One written record: fields joined by `','`, terminated by `\r\n`. -/
def writeRecord (fields : List Str) : Str :=
  intercalateC ',' (fields.map writeField) ++ ['\r', '\n']

/-- Fields of row `i`: column `c`'s entry `i`, in column order. -/
def rowFieldsOf (df : DataFrame) (i : ℕ) : Option (List Str) :=
  seqOpt (df.cols.map (fun p => (p.2.get? i).bind cellCsv?))

/-- Written records for `n` rows starting at row `i`. -/
def rowsFromAux (df : DataFrame) : ℕ → ℕ → Option (List Str)
  | _, 0 => some []
  | i, n + 1 =>
    (rowFieldsOf df i).bind (fun fs =>
      (rowsFromAux df (i + 1) n).map (fun rs => writeRecord fs :: rs))

/-- Embedding of `DataFrame.to_csv(index=False)` (`src/pandas/__init__.py`
lines 127–133): the header record then one record per row. -/
def to_csv? (df : DataFrame) : Option Str :=
  (rowsFromAux df 0 df.nRows).map
    (fun rs => writeRecord df.names ++ rs.flatten)

/-- A character that triggers neither quoting nor field/record
splitting in the CSV layer. -/
def csvPlain (c : Char) : Prop :=
  c ≠ ',' ∧ c ≠ '"' ∧ c ≠ '\n' ∧ c ≠ '\r'

instance (c : Char) : Decidable (csvPlain c) := by
  unfold csvPlain; infer_instance

/-- Text written for a cell (total form of `cellCsv?`; coincides with it
on safe cells). -/
def fieldOf (c : Cell) : Str :=
  match c with
  | .null => []
  | .str s => s
  | .num q => pyStrRat q

/-- Cells whose written field survives the CSV text layer unmangled:
strings trigger no quoting and no field/record splitting; numbers print
within the digit fuel. -/
def SafeCell : Cell → Prop
  | .null => True
  | .str s => ∀ c ∈ s, csvPlain c
  | .num q => decRepr q = true

instance (c : Cell) : Decidable (SafeCell c) := by
  cases c <;> (unfold SafeCell; infer_instance)

/-- Re-ingestion image of a held cell under the `','`/`'.'` dialect: an
empty-string cell comes back null, any other string cell is re-run
through `float` — text that parses (a tag such as `"123"`) comes back
as that number, everything else as the same string — and null and
numeric cells come back unchanged. -/
def reCell (c : Cell) : Cell :=
  match c with
  | .str [] => .null
  | .str s =>
    (match pyFloat? s with
     | some q => .num q
     | none => .str s)
  | c => c

/-- Fields of row `i` as plain text, in column order. -/
def fieldsRow (df : DataFrame) (i : ℕ) : List Str :=
  df.cols.map (fun p => fieldOf (p.2.getD i .null))

/-! ## Concrete tables used by the claims -/

/-- Held table of the round-trip counterexample: ingest a two-column
German CSV, normalize the tag columns, tag the first row. -/
def c9Held : DataFrame :=
  (tagRows (ensure_tag_columns
      ((try_read_csv (strOf "A;B\n1;x\n2;y")).getD ⟨[]⟩))
    [true, false] (strOf "Private") (strOf "ent")).1

/-- Re-ingestion of the round-trip counterexample's own export. -/
def c9Re : Option DataFrame := (to_csv? c9Held).bind try_read_csv

/-- One-row table with null tag cells, for the tagging counterexample. -/
def c2df : DataFrame :=
  ⟨[(strOf "Category", [.null]), (strOf "Subcategory", [.null])]⟩

/-- Two-row table for the search-mask witness. -/
def c8df : DataFrame :=
  ⟨[(strOf "Category", [.str [], .str (strOf "x")]),
    (strOf "B", [.str (strOf "a"), .str (strOf "b")])]⟩

/-- Normalized three-column table for the tagging witnesses. -/
def c1df : DataFrame :=
  ⟨[(strOf "A", [.num 1, .num 2]),
    (strOf "Category", [.str [], .str []]),
    (strOf "Subcategory", [.str [], .str []])]⟩

/-- Table for the round-trip witness: one row tagged with the
numeric-looking category `"123"`, one row still untagged. -/
def c9tagdf : DataFrame :=
  ⟨[(strOf "A", [.num 1, .num 2]),
    (strOf "Category", [.str (strOf "123"), .str []]),
    (strOf "Subcategory", [.str (strOf "ent"), .str []])]⟩

/-! ## Helper lemmas -/

theorem find?_map_keep_fst (l : List (Str × List Cell)) (c : Str)
    (g : Str → List Cell → List Cell) :
    ((l.map (fun p => (p.1, g p.1 p.2))).find? (fun p => p.1 = c)) =
      (l.find? (fun p => p.1 = c)).map (fun p => (p.1, g p.1 p.2)) := by
  induction l with
  | nil => rfl
  | cons h t ih =>
    by_cases hc : h.1 = c
    · simp [List.find?, hc]
    · simp [List.find?, hc, ih]

theorem getCol?_map_keep_fst (cols : List (Str × List Cell)) (c : Str)
    (g : Str → List Cell → List Cell) :
    DataFrame.getCol? ⟨cols.map (fun p => (p.1, g p.1 p.2))⟩ c =
      (DataFrame.getCol? ⟨cols⟩ c).map (g c) := by
  unfold DataFrame.getCol?
  rw [find?_map_keep_fst]
  cases hf : cols.find? (fun p => p.1 = c) with
  | none => rfl
  | some p =>
    have := List.find?_some hf
    simp only [decide_eq_true_eq] at this
    simp [this]

theorem setMasked_eq_map (df : DataFrame) (mask : List Bool) (col : Str)
    (v : Cell) :
    setMasked df mask col v =
      ⟨df.cols.map (fun p =>
        (p.1, if p.1 = col then applyMask mask v p.2 else p.2))⟩ := by
  unfold setMasked
  congr 1
  apply List.map_congr_left
  intro p _
  by_cases hp : p.1 = col <;> simp [hp]

theorem getCol?_setMasked_self (df : DataFrame) (mask : List Bool)
    (col : Str) (v : Cell) :
    (setMasked df mask col v).getCol? col =
      (df.getCol? col).map (applyMask mask v) := by
  rw [setMasked_eq_map]
  have := getCol?_map_keep_fst df.cols col
    (fun c x => if c = col then applyMask mask v x else x)
  simp only at this
  rw [this]
  simp

theorem getCol?_setMasked_ne (df : DataFrame) (mask : List Bool)
    (col c : Str) (v : Cell) (h : c ≠ col) :
    (setMasked df mask col v).getCol? c = df.getCol? c := by
  rw [setMasked_eq_map]
  have := getCol?_map_keep_fst df.cols c
    (fun c' x => if c' = col then applyMask mask v x else x)
  simp only at this
  rw [this]
  simp only [h, if_false]
  cases df.getCol? c <;> rfl

theorem names_setMasked (df : DataFrame) (mask : List Bool) (col : Str)
    (v : Cell) :
    (setMasked df mask col v).names = df.names := by
  rw [setMasked_eq_map]
  unfold DataFrame.names
  rw [List.map_map]
  rfl

theorem applyMask_length (mask : List Bool) (v : Cell) (col : List Cell)
    (h : mask.length = col.length) :
    (applyMask mask v col).length = col.length := by
  simp [applyMask, h]

theorem applyMask_getElem? (v : Cell) :
    ∀ (mask : List Bool) (col : List Cell) (i : ℕ) (m : Bool) (c : Cell),
      mask[i]? = some m → col[i]? = some c →
      (applyMask mask v col)[i]? = some (if m then v else c)
  | [], _, i, _, _, hm, _ => by simp at hm
  | _ :: _, [], i, _, _, _, hc => by simp at hc
  | mb :: mask, cb :: col, 0, m, c, hm, hc => by
    simp_all [applyMask]
  | mb :: mask, cb :: col, i + 1, m, c, hm, hc => by
    simpa [applyMask] using applyMask_getElem? v mask col i m c (by simpa using hm) (by simpa using hc)

theorem getCol?_isSome_iff (df : DataFrame) (c : Str) :
    (df.getCol? c).isSome ↔ df.hasCol c = true := by
  unfold DataFrame.getCol? DataFrame.hasCol
  cases hf : df.cols.find? (fun p => p.1 = c) with
  | none =>
    have : ¬ ∃ x ∈ df.cols, (fun p => decide (p.1 = c)) x = true := by
      rw [← List.find?_isSome, hf]; simp
    simpa [List.any_eq_true] using this
  | some p =>
    have : ∃ x ∈ df.cols, (fun p => decide (p.1 = c)) x = true := by
      rw [← List.find?_isSome, hf]; simp
    simpa [List.any_eq_true] using this

theorem getCol?_mem (df : DataFrame) (c : Str) (col : List Cell)
    (h : df.getCol? c = some col) : (c, col) ∈ df.cols := by
  unfold DataFrame.getCol? at h
  cases hf : df.cols.find? (fun p => p.1 = c) with
  | none =>
    rw [hf] at h
    exact Option.noConfusion h
  | some p =>
    rw [hf] at h
    have hmem := List.mem_of_find?_eq_some hf
    have hfst := List.find?_some hf
    simp only [decide_eq_true_eq] at hfst
    simp only [Option.map_some'] at h
    obtain ⟨p1, p2⟩ := p
    simp only at hfst h
    subst hfst
    injection h with h
    subst h
    exact hmem

theorem rowContrib_not_mem (decimal : Char) :
    ∀ (headers row : List Str) (h : Str), h ∉ headers →
      rowContrib decimal headers row h = []
  | [], _, _, _ => rfl
  | _ :: _, [], _, _ => rfl
  | h' :: hs, v :: vs, h, hnm => by
    have h1 : h' ≠ h := fun e => hnm (e ▸ List.mem_cons_self h' hs)
    have h2 : h ∉ hs := fun e => hnm (List.mem_cons_of_mem h' e)
    simp only [rowContrib, List.zip_cons_cons, List.filterMap_cons]
    rw [if_neg h1]
    exact rowContrib_not_mem decimal hs vs h h2

theorem rowContrib_nodup (decimal : Char) :
    ∀ (headers row : List Str) (h : Str), headers.Nodup → h ∈ headers →
      rowContrib decimal headers row h =
        if idxOf h headers < row.length
        then [convertField decimal (row.getD (idxOf h headers) [])]
        else []
  | [], _, _, _, hmem => absurd hmem (List.not_mem_nil _)
  | h' :: hs, [], h, _, _ => by
    simp [rowContrib]
  | h' :: hs, v :: vs, h, hnd, hmem => by
    by_cases he : h' = h
    · subst he
      have hnm : h' ∉ hs := (List.nodup_cons.mp hnd).1
      simp only [rowContrib, List.zip_cons_cons, List.filterMap_cons, if_pos rfl]
      rw [show (List.filterMap (fun p => if p.1 = h' then
            some (convertField decimal p.2) else none) (hs.zip vs)) =
          rowContrib decimal hs vs h' from rfl]
      rw [rowContrib_not_mem decimal hs vs h' hnm]
      have hidx0 : idxOf h' (h' :: hs) = 0 := by simp [idxOf]
      rw [hidx0]
      simp
    · have hmem' : h ∈ hs := by
        cases List.mem_cons.mp hmem with
        | inl e => exact absurd e.symm he
        | inr e => exact e
      have hnd' : hs.Nodup := (List.nodup_cons.mp hnd).2
      simp only [rowContrib, List.zip_cons_cons, List.filterMap_cons]
      rw [if_neg he]
      rw [show (List.filterMap (fun p => if p.1 = h then
            some (convertField decimal p.2) else none) (hs.zip vs)) =
          rowContrib decimal hs vs h from rfl]
      rw [rowContrib_nodup decimal hs vs h hnd' hmem']
      have hidx : idxOf h (h' :: hs) = idxOf h hs + 1 := by
        simp [idxOf, he]
      rw [hidx]
      simp [Nat.succ_lt_succ_iff]

theorem uniqKeys_of_nodup : ∀ (l : List Str), l.Nodup → uniqKeys l = l
  | [], _ => rfl
  | a :: t, hnd => by
    have h1 : a ∉ t := (List.nodup_cons.mp hnd).1
    have h2 : t.Nodup := (List.nodup_cons.mp hnd).2
    simp only [uniqKeys, uniqKeys_of_nodup t h2]
    congr 1
    apply List.filter_eq_self.mpr
    intro x hx
    simp only [decide_eq_true_eq]
    exact fun e => h1 (e ▸ hx)

theorem getCol?_of_keyed (g : Str → List Cell) :
    ∀ (l : List Str) (h : Str), h ∈ l →
      DataFrame.getCol? ⟨l.map (fun x => (x, g x))⟩ h = some (g h)
  | [], _, hmem => absurd hmem (List.not_mem_nil _)
  | x :: t, h, hmem => by
    by_cases he : x = h
    · subst he
      unfold DataFrame.getCol?
      simp [List.find?]
    · have hmem' : h ∈ t := by
        cases List.mem_cons.mp hmem with
        | inl e => exact absurd e.symm he
        | inr e => exact e
      have := getCol?_of_keyed g t h hmem'
      unfold DataFrame.getCol? at this ⊢
      simpa [List.find?, he] using this

theorem flatMap_if_singleton {α β : Type} (p : α → Prop) [DecidablePred p]
    (f : α → β) :
    ∀ l : List α,
      (l.flatMap (fun r => if p r then [f r] else [])) =
        (l.filter (fun r => decide (p r))).map f
  | [] => rfl
  | a :: t => by
    by_cases hp : p a <;>
      simp [List.flatMap_cons, List.filter_cons, hp,
        flatMap_if_singleton p f t]

theorem getCol?_from_rows (headers : List Str) (rows : List (List Str))
    (decimal : Char) (h : Str) (hnd : headers.Nodup) (hmem : h ∈ headers) :
    (DataFrame_from_rows headers rows decimal).getCol? h =
      some ((rows.filter (fun r => idxOf h headers < r.length)).map
        (fun r => convertField decimal (r.getD (idxOf h headers) []))) := by
  unfold DataFrame_from_rows
  rw [uniqKeys_of_nodup headers hnd]
  rw [getCol?_of_keyed _ headers h hmem]
  congr 1
  rw [show (fun r => rowContrib decimal headers r h) =
      (fun r : List Str => if idxOf h headers < r.length
        then [convertField decimal (r.getD (idxOf h headers) [])]
        else []) from funext (fun r => rowContrib_nodup decimal headers r h hnd hmem)]
  exact flatMap_if_singleton _ _ rows

theorem toNat_ofNat_valid (n : ℕ) (h : n < 55296) : (Char.ofNat n).toNat = n := by
  unfold Char.ofNat
  rw [dif_pos]
  · rfl
  · exact Or.inl h

theorem pyUpperChar_fixes_image (c : Char) (h : 'a' ≤ c ∧ c ≤ 'z') :
    pyUpperChar (Char.ofNat (c.toNat - 32)) = Char.ofNat (c.toNat - 32) := by
  have h97 : 97 ≤ c.toNat := h.1
  have h122 : c.toNat ≤ 122 := h.2
  have hn : (Char.ofNat (c.toNat - 32)).toNat = c.toNat - 32 :=
    toNat_ofNat_valid _ (by omega)
  have hc1 : ¬('a' ≤ Char.ofNat (c.toNat - 32) ∧ Char.ofNat (c.toNat - 32) ≤ 'z') := by
    rintro ⟨ha, _⟩
    have h2 : 97 ≤ (Char.ofNat (c.toNat - 32)).toNat := ha
    rw [hn] at h2
    omega
  have hc2 : Char.ofNat (c.toNat - 32) ≠ 'ä' := by
    intro e
    have h2 : (Char.ofNat (c.toNat - 32)).toNat = 228 := by rw [e]; rfl
    rw [hn] at h2
    omega
  have hc3 : Char.ofNat (c.toNat - 32) ≠ 'ö' := by
    intro e
    have h2 : (Char.ofNat (c.toNat - 32)).toNat = 246 := by rw [e]; rfl
    rw [hn] at h2
    omega
  have hc4 : Char.ofNat (c.toNat - 32) ≠ 'ü' := by
    intro e
    have h2 : (Char.ofNat (c.toNat - 32)).toNat = 252 := by rw [e]; rfl
    rw [hn] at h2
    omega
  rw [pyUpperChar, if_neg hc1, if_neg hc2, if_neg hc3, if_neg hc4]

theorem pyUpperChar_idem (c : Char) :
    pyUpperChar (pyUpperChar c) = pyUpperChar c := by
  by_cases h1 : 'a' ≤ c ∧ c ≤ 'z'
  · have e : pyUpperChar c = Char.ofNat (c.toNat - 32) := by
      rw [pyUpperChar, if_pos h1]
    rw [e, pyUpperChar_fixes_image c h1]
  · by_cases h2 : c = 'ä'
    · subst h2; decide
    · by_cases h3 : c = 'ö'
      · subst h3; decide
      · by_cases h4 : c = 'ü'
        · subst h4; decide
        · have e : pyUpperChar c = c := by
            rw [pyUpperChar, if_neg h1, if_neg h2, if_neg h3, if_neg h4]
          rw [e, e]

theorem mem_splitWsAux :
    ∀ (s acc t : Str), t ∈ splitWsAux s acc → ∀ c ∈ t, c ∈ s ∨ c ∈ acc
  | [], acc, t, ht, c, hc => by
    unfold splitWsAux at ht
    by_cases ha : acc = []
    · rw [if_pos ha] at ht; exact absurd ht (List.not_mem_nil t)
    · rw [if_neg ha] at ht
      rcases List.mem_singleton.mp ht with rfl
      exact Or.inr (List.mem_reverse.mp hc)
  | ch :: cs, acc, t, ht, c, hc => by
    unfold splitWsAux at ht
    by_cases hsp : isSpace ch = true
    · rw [if_pos hsp] at ht
      by_cases ha : acc = []
      · rw [if_pos ha] at ht
        rcases mem_splitWsAux cs [] t ht c hc with h | h
        · exact Or.inl (List.mem_cons_of_mem ch h)
        · exact absurd h (List.not_mem_nil c)
      · rw [if_neg ha] at ht
        rcases List.mem_cons.mp ht with rfl | h
        · exact Or.inr (List.mem_reverse.mp hc)
        · rcases mem_splitWsAux cs [] t h c hc with h2 | h2
          · exact Or.inl (List.mem_cons_of_mem ch h2)
          · exact absurd h2 (List.not_mem_nil c)
    · rw [if_neg hsp] at ht
      rcases mem_splitWsAux cs (ch :: acc) t ht c hc with h | h
      · exact Or.inl (List.mem_cons_of_mem ch h)
      · rcases List.mem_cons.mp h with rfl | h2
        · exact Or.inl (List.mem_cons_self c cs)
        · exact Or.inr h2

theorem splitWs_chars (s t : Str) (ht : t ∈ splitWs s) : ∀ c ∈ t, c ∈ s := by
  intro c hc
  rcases mem_splitWsAux s [] t ht c hc with h | h
  · exact h
  · exact absurd h (List.not_mem_nil c)

theorem pyUpper_token_fixed (txt t : Str)
    (ht : t ∈ splitWs (subNonWord (pyUpper txt))) : pyUpper t = t := by
  have hfix : ∀ c ∈ t, pyUpperChar c = c := by
    intro c hc
    have hmem : c ∈ subNonWord (pyUpper txt) := splitWs_chars _ t ht c hc
    unfold subNonWord pyUpper at hmem
    rcases List.mem_map.mp hmem with ⟨d, hd, he⟩
    rcases List.mem_map.mp hd with ⟨d0, _, he0⟩
    by_cases hw : isWordChar d = true ∨ isSpace d = true
    · rw [if_pos hw] at he
      rw [← he, ← he0]
      exact pyUpperChar_idem d0
    · rw [if_neg hw] at he
      rw [← he]
      decide
  calc pyUpper t = t.map id := List.map_congr_left hfix
  _ = t := List.map_id t

theorem digitsVal_cons (c : Char) (cs : Str) :
    digitsVal (c :: cs) = (c.toNat - 48) * 10 ^ cs.length + digitsVal cs := by
  have key : ∀ (s : Str) (a : ℕ),
      s.foldl (fun x ch => x * 10 + (ch.toNat - 48)) a =
        a * 10 ^ s.length + digitsVal s := by
    intro s
    induction s with
    | nil => intro a; simp [digitsVal]
    | cons d ds ih =>
      intro a
      have h2 : digitsVal (d :: ds) =
          (d.toNat - 48) * 10 ^ ds.length + digitsVal ds := by
        show List.foldl _ (0 * 10 + (d.toNat - 48)) ds = _
        rw [ih]
        ring_nf
      simp only [List.foldl_cons, List.length_cons]
      rw [ih (a * 10 + (d.toNat - 48)), h2]
      ring
  show List.foldl _ (0 * 10 + (c.toNat - 48)) cs = _
  rw [key]
  ring_nf

theorem digitsVal_append (a b : Str) :
    digitsVal (a ++ b) = digitsVal a * 10 ^ b.length + digitsVal b := by
  induction a with
  | nil => simp [digitsVal]
  | cons c cs ih =>
    rw [List.cons_append, digitsVal_cons, digitsVal_cons, ih,
      List.length_append]
    ring

theorem toNat_digitChar (m : ℕ) (h : m < 10) :
    (Char.ofNat (48 + m)).toNat = 48 + m :=
  toNat_ofNat_valid _ (by omega)

theorem toNat_digitChar_sub (m : ℕ) (h : m < 10) :
    (Char.ofNat (48 + m)).toNat - 48 = m := by
  rw [toNat_digitChar _ h]
  omega

theorem digitChar_class (m : ℕ) (h : m < 10) :
    isDigitC (Char.ofNat (48 + m)) = true := by
  have hn := toNat_digitChar m h
  unfold isDigitC
  simp only [decide_eq_true_eq]
  constructor
  · show 48 ≤ (Char.ofNat (48 + m)).toNat
    omega
  · show (Char.ofNat (48 + m)).toNat ≤ 57
    omega

theorem isDigitC_toNat (c : Char) (h : isDigitC c = true) :
    48 ≤ c.toNat ∧ c.toNat ≤ 57 := by
  unfold isDigitC at h
  simp only [decide_eq_true_eq] at h
  exact ⟨h.1, h.2⟩

theorem natReprAux_digitsVal : ∀ (f m : ℕ), m < 10 ^ f →
    digitsVal (natReprAux f m) = m
  | 0, m, h => by
    interval_cases m
    rfl
  | f + 1, m, h => by
    rw [natReprAux]
    by_cases hm : m = 0
    · rw [if_pos hm, hm]; rfl
    · rw [if_neg hm, digitsVal_append]
      have hdiv : m / 10 < 10 ^ f := by
        rw [Nat.div_lt_iff_lt_mul (by omega)]
        calc m < 10 ^ (f + 1) := h
        _ = 10 ^ f * 10 := by ring
      rw [natReprAux_digitsVal f (m / 10) hdiv]
      have hd : digitsVal [Char.ofNat (48 + m % 10)] = m % 10 := by
        rw [digitsVal_cons, toNat_digitChar_sub _ (Nat.mod_lt _ (by omega))]
        simp [digitsVal]
      rw [hd]
      simp only [List.length_cons, List.length_nil, pow_one]
      omega

theorem natRepr_digitsVal (m : ℕ) : digitsVal (natRepr m) = m := by
  unfold natRepr
  by_cases h : m = 0
  · rw [if_pos h, h]; decide
  · rw [if_neg h]
    apply natReprAux_digitsVal
    calc m < 10 ^ m := Nat.lt_pow_self (by omega) m
    _ ≤ 10 ^ (m + 1) := Nat.pow_le_pow_right (by omega) (by omega)

theorem natReprAux_digits : ∀ (f m : ℕ), ∀ c ∈ natReprAux f m, isDigitC c = true
  | 0, m, c, hc => absurd hc (List.not_mem_nil c)
  | f + 1, m, c, hc => by
    rw [natReprAux] at hc
    by_cases hm : m = 0
    · rw [if_pos hm] at hc; exact absurd hc (List.not_mem_nil c)
    · rw [if_neg hm] at hc
      rcases List.mem_append.mp hc with h | h
      · exact natReprAux_digits f (m / 10) c h
      · rcases List.mem_singleton.mp h with rfl
        exact digitChar_class _ (Nat.mod_lt _ (by omega))

theorem natRepr_digits (m : ℕ) : ∀ c ∈ natRepr m, isDigitC c = true := by
  unfold natRepr
  by_cases h : m = 0
  · rw [if_pos h]
    intro c hc
    rcases List.mem_singleton.mp hc with rfl
    decide
  · rw [if_neg h]
    exact natReprAux_digits _ m

theorem natRepr_ne_nil (m : ℕ) : natRepr m ≠ [] := by
  unfold natRepr
  by_cases h : m = 0
  · rw [if_pos h]; simp
  · rw [if_neg h, natReprAux, if_neg h]
    simp

theorem fracDigitsN_spec : ∀ (f r d : ℕ), 0 < d → r < d →
    ∀ ds, fracDigitsN f r d = some ds →
      digitsVal ds * d = r * 10 ^ ds.length ∧
      (∀ c ∈ ds, isDigitC c = true) ∧ (r ≠ 0 → ds ≠ [])
  | 0, r, d, hd, hr, ds, hds => by
    unfold fracDigitsN at hds
    by_cases h : r = 0
    · rw [if_pos h] at hds
      injection hds with hds
      subst h
      rw [← hds]
      exact ⟨by simp [digitsVal], by simp, by simp⟩
    · rw [if_neg h] at hds
      exact Option.noConfusion hds
  | f + 1, r, d, hd, hr, ds, hds => by
    unfold fracDigitsN at hds
    by_cases h : r = 0
    · rw [if_pos h] at hds
      injection hds with hds
      subst h
      rw [← hds]
      exact ⟨by simp [digitsVal], by simp, by simp⟩
    · rw [if_neg h] at hds
      simp only at hds
      cases hrec : fracDigitsN f (r * 10 % d) d with
      | none => rw [hrec] at hds; exact Option.noConfusion hds
      | some ds' =>
        rw [hrec] at hds
        simp only [Option.map_some'] at hds
        injection hds with hds
        obtain ⟨hval, hdig, _⟩ :=
          fracDigitsN_spec f (r * 10 % d) d hd (Nat.mod_lt _ hd) ds' hrec
        have hq : r * 10 / d < 10 := by
          rw [Nat.div_lt_iff_lt_mul hd]
          calc r * 10 < d * 10 := by omega
          _ = 10 * d := by ring
        rw [← hds]
        refine ⟨?_, ?_, by simp⟩
        · rw [digitsVal_cons, toNat_digitChar_sub _ hq]
          have hdm : r * 10 / d * d + r * 10 % d = r * 10 := by
            rw [Nat.mul_comm]
            exact Nat.div_add_mod (r * 10) d
          calc (r * 10 / d * 10 ^ ds'.length + digitsVal ds') * d
              = (r * 10 / d * d) * 10 ^ ds'.length + digitsVal ds' * d := by
                ring
          _ = (r * 10 / d * d) * 10 ^ ds'.length +
                (r * 10 % d) * 10 ^ ds'.length := by rw [hval]
          _ = (r * 10 / d * d + r * 10 % d) * 10 ^ ds'.length := by ring
          _ = (r * 10) * 10 ^ ds'.length := by rw [hdm]
          _ = r * 10 ^ (ds'.length + 1) := by ring
        · intro c hc
          rcases List.mem_cons.mp hc with rfl | hmem
          · exact digitChar_class _ hq
          · exact hdig c hmem

theorem takeWhile_all {p : Char → Bool} :
    ∀ a : Str, (∀ c ∈ a, p c = true) → a.takeWhile p = a
  | [], _ => rfl
  | c :: cs, h => by
    rw [List.takeWhile_cons, if_pos (h c (List.mem_cons_self c cs))]
    rw [takeWhile_all cs (fun x hx => h x (List.mem_cons_of_mem c hx))]

theorem dropWhile_all {p : Char → Bool} :
    ∀ a : Str, (∀ c ∈ a, p c = true) → a.dropWhile p = []
  | [], _ => rfl
  | c :: cs, h => by
    rw [List.dropWhile_cons, if_pos (h c (List.mem_cons_self c cs))]
    exact dropWhile_all cs (fun x hx => h x (List.mem_cons_of_mem c hx))

theorem takeWhile_append_stop {p : Char → Bool} :
    ∀ (a : Str) (x : Char) (b : Str), (∀ c ∈ a, p c = true) → p x = false →
      (a ++ x :: b).takeWhile p = a
  | [], x, b, _, hx => by
    rw [List.nil_append, List.takeWhile_cons, if_neg (by rw [hx]; simp)]
  | c :: cs, x, b, h, hx => by
    rw [List.cons_append, List.takeWhile_cons,
      if_pos (h c (List.mem_cons_self c cs))]
    rw [takeWhile_append_stop cs x b
      (fun y hy => h y (List.mem_cons_of_mem c hy)) hx]

theorem dropWhile_append_stop {p : Char → Bool} :
    ∀ (a : Str) (x : Char) (b : Str), (∀ c ∈ a, p c = true) → p x = false →
      (a ++ x :: b).dropWhile p = x :: b
  | [], x, b, _, hx => by
    rw [List.nil_append, List.dropWhile_cons, if_neg (by rw [hx]; simp)]
  | c :: cs, x, b, h, hx => by
    rw [List.cons_append, List.dropWhile_cons,
      if_pos (h c (List.mem_cons_self c cs))]
    exact dropWhile_append_stop cs x b
      (fun y hy => h y (List.mem_cons_of_mem c hy)) hx

theorem dropWhile_no (p : Char → Bool) (s : Str)
    (h : ∀ c ∈ s, p c = false) : s.dropWhile p = s := by
  cases s with
  | nil => rfl
  | cons c cs =>
    rw [List.dropWhile_cons, if_neg]
    rw [h c (List.mem_cons_self c cs)]
    simp

theorem pyStrip_no_space (s : Str) (h : ∀ c ∈ s, isSpace c = false) :
    pyStrip s = s := by
  unfold pyStrip
  rw [dropWhile_no _ s h, dropWhile_no _ s.reverse
    (fun c hc => h c (List.mem_reverse.mp hc)), List.reverse_reverse]

theorem pyStrRat_eq_of_some (q : ℚ) (out : Str) (h : pyStrRat? q = some out) :
    pyStrRat q = out := by
  unfold pyStrRat
  rw [h]
  rfl

theorem pyStrRat?_struct (q : ℚ) (out : Str) (h : pyStrRat? q = some out) :
    ∃ ds : Str,
      out = (if q.num < 0 then ['-'] else []) ++
        natRepr (q.num.natAbs / q.den) ++ '.' :: ds ∧
      ds ≠ [] ∧ (∀ c ∈ ds, isDigitC c = true) ∧
      digitsVal ds * q.den = (q.num.natAbs % q.den) * 10 ^ ds.length := by
  unfold pyStrRat? at h
  by_cases hmod : q.num.natAbs % q.den = 0
  · rw [if_pos hmod] at h
    injection h with h
    refine ⟨['0'], ?_, by decide, ?_, ?_⟩
    · rw [← h]
    · intro c hc
      rcases List.mem_singleton.mp hc with rfl
      decide
    · rw [hmod, show digitsVal ['0'] = 0 from rfl, Nat.zero_mul,
        Nat.zero_mul]
  · rw [if_neg hmod] at h
    cases hfd : fracDigitsN fracFuel (q.num.natAbs % q.den) q.den with
    | none => rw [hfd] at h; exact Option.noConfusion h
    | some ds =>
      rw [hfd] at h
      simp only [Option.map_some'] at h
      injection h with h
      obtain ⟨hval, hdig, hne⟩ := fracDigitsN_spec fracFuel _ _
        q.den_pos (Nat.mod_lt _ q.den_pos) ds hfd
      exact ⟨ds, h.symm, hne hmod, hdig, hval⟩

theorem numChar_class (q : ℚ) (out : Str) (h : pyStrRat? q = some out) :
    ∀ c ∈ out, isDigitC c = true ∨ c = '-' ∨ c = '.' := by
  obtain ⟨ds, hout, _, hdig, _⟩ := pyStrRat?_struct q out h
  intro c hc
  rw [hout] at hc
  rcases List.mem_append.mp hc with h1 | h1
  · rcases List.mem_append.mp h1 with h2 | h2
    · by_cases hs : q.num < 0
      · rw [if_pos hs] at h2
        rcases List.mem_singleton.mp h2 with rfl
        exact Or.inr (Or.inl rfl)
      · rw [if_neg hs] at h2
        exact absurd h2 (List.not_mem_nil c)
    · exact Or.inl (natRepr_digits _ c h2)
  · rcases List.mem_cons.mp h1 with rfl | h2
    · exact Or.inr (Or.inr rfl)
    · exact Or.inl (hdig c h2)

theorem numChar_not_space (c : Char)
    (h : isDigitC c = true ∨ c = '-' ∨ c = '.') : isSpace c = false := by
  rcases h with hd | rfl | rfl
  · obtain ⟨h1, h2⟩ := isDigitC_toNat c hd
    unfold isSpace
    simp only [decide_eq_false_iff_not]
    rintro (rfl | rfl | rfl | rfl | rfl | rfl) <;> simp_all
  · decide
  · decide

theorem mkRat_print_eq (q : ℚ) (ds : Str)
    (hval : digitsVal ds * q.den = (q.num.natAbs % q.den) * 10 ^ ds.length) :
    mkRat ((if q.num < 0 then (-1 : ℤ) else 1) *
        (((q.num.natAbs / q.den : ℕ) : ℤ) * (10 : ℤ) ^ ds.length +
          ((digitsVal ds : ℕ) : ℤ)))
      (10 ^ ds.length) = q := by
  have hden : q.den ≠ 0 := q.den_nz
  have hten : (10 : ℕ) ^ ds.length ≠ 0 := pow_ne_zero _ (by omega)
  have hnat : (q.num.natAbs / q.den * 10 ^ ds.length + digitsVal ds) * q.den
      = q.num.natAbs * 10 ^ ds.length := by
    have hdm : q.num.natAbs / q.den * q.den + q.num.natAbs % q.den
        = q.num.natAbs := by
      rw [Nat.mul_comm]
      exact Nat.div_add_mod _ _
    calc (q.num.natAbs / q.den * 10 ^ ds.length + digitsVal ds) * q.den
        = (q.num.natAbs / q.den * q.den) * 10 ^ ds.length +
          digitsVal ds * q.den := by ring
    _ = (q.num.natAbs / q.den * q.den) * 10 ^ ds.length +
          (q.num.natAbs % q.den) * 10 ^ ds.length := by rw [hval]
    _ = (q.num.natAbs / q.den * q.den + q.num.natAbs % q.den) *
          10 ^ ds.length := by ring
    _ = q.num.natAbs * 10 ^ ds.length := by rw [hdm]
  have hz : ((q.num.natAbs / q.den * 10 ^ ds.length + digitsVal ds : ℕ) : ℤ)
      * (q.den : ℤ) = ((q.num.natAbs : ℕ) : ℤ) *
        ((10 ^ ds.length : ℕ) : ℤ) := by
    exact_mod_cast hnat
  have hsplit : ((q.num.natAbs / q.den * 10 ^ ds.length + digitsVal ds : ℕ)
      : ℤ) = ((q.num.natAbs / q.den : ℕ) : ℤ) * (10 : ℤ) ^ ds.length +
        ((digitsVal ds : ℕ) : ℤ) := by
    push_cast
    ring
  have hp : ((10 ^ ds.length : ℕ) : ℤ) = (10 : ℤ) ^ ds.length := by
    push_cast
    ring
  rw [hp] at hz
  conv_rhs => rw [← Rat.mkRat_self q]
  rw [Rat.mkRat_eq_iff hten hden, ← hsplit, hp]
  by_cases hs : q.num < 0
  · rw [if_pos hs]
    have hnum : q.num = -(q.num.natAbs : ℤ) := by omega
    linear_combination (-1 : ℤ) * hz - (10 : ℤ) ^ ds.length * hnum
  · rw [if_neg hs]
    have hnum : q.num = (q.num.natAbs : ℤ) := by omega
    linear_combination hz - (10 : ℤ) ^ ds.length * hnum


theorem splitSign_minus (rest : Str) :
    splitSign ('-' :: rest) = (-1, rest) := by
  unfold splitSign
  rw [if_neg (by simp), if_pos (by simp)]
  rfl

theorem splitSign_digit (c : Char) (rest : Str) (hc : isDigitC c = true) :
    splitSign (c :: rest) = (1, c :: rest) := by
  obtain ⟨h1, h2⟩ := isDigitC_toNat c hc
  have hplus : c ≠ '+' := by
    intro e
    rw [e] at h1
    exact absurd h1 (by decide)
  have hminus : c ≠ '-' := by
    intro e
    rw [e] at h1
    exact absurd h1 (by decide)
  unfold splitSign
  rw [if_neg (by simp [hplus]), if_neg (by simp [hminus])]

theorem fracSplit_dot (ds : Str) (hdig : ∀ c ∈ ds, isDigitC c = true) :
    fracSplit ('.' :: ds) = (ds, []) := by
  unfold fracSplit
  rw [if_pos (by simp)]
  simp only [List.tail_cons]
  rw [takeWhile_all ds hdig, dropWhile_all ds hdig]

theorem pyFloat?_of_parts (sgnNeg : Bool) (ipart ds : Str)
    (hip : ∀ c ∈ ipart, isDigitC c = true) (hipne : ipart ≠ [])
    (hds : ∀ c ∈ ds, isDigitC c = true) :
    pyFloat? ((if sgnNeg then ['-'] else []) ++ ipart ++ '.' :: ds) =
      some (mkRat ((if sgnNeg then (-1 : ℤ) else 1) *
        ((digitsVal ipart : ℕ) * (10 : ℤ) ^ ds.length +
          ((digitsVal ds : ℕ) : ℤ))) (10 ^ ds.length)) := by
  have hplain : ∀ c ∈ (if sgnNeg then ['-'] else []) ++ ipart ++ '.' :: ds,
      isSpace c = false := by
    intro c hc
    rcases List.mem_append.mp hc with h1 | h1
    · rcases List.mem_append.mp h1 with h2 | h2
      · cases sgnNeg with
        | false => simp at h2
        | true =>
          simp only [if_pos] at h2
          rcases List.mem_singleton.mp h2 with rfl
          decide
      · exact numChar_not_space c (Or.inl (hip c h2))
    · rcases List.mem_cons.mp h1 with rfl | h3
      · decide
      · exact numChar_not_space c (Or.inl (hds c h3))
  obtain ⟨c0, cs0, hc0⟩ := List.exists_cons_of_ne_nil hipne
  have hsplit : splitSign (ipart ++ '.' :: ds) = (1, ipart ++ '.' :: ds) := by
    rw [hc0, List.cons_append]
    rw [splitSign_digit c0 _ (hip c0 (by rw [hc0]; exact List.mem_cons_self _ _))]
  have htake : (ipart ++ '.' :: ds).takeWhile isDigitC = ipart :=
    takeWhile_append_stop ipart '.' ds hip (by decide)
  have hdrop : (ipart ++ '.' :: ds).dropWhile isDigitC = '.' :: ds :=
    dropWhile_append_stop ipart '.' ds hip (by decide)
  cases sgnNeg with
  | false =>
    simp only [Bool.false_eq_true, if_false, List.nil_append] at hplain ⊢
    simp only [pyFloat?]
    rw [pyStrip_no_space _ hplain, hsplit]
    simp only
    rw [htake, hdrop, fracSplit_dot ds hds]
    simp only
    rw [if_neg (fun hand => hipne hand.1)]
  | true =>
    simp only [if_pos, List.singleton_append, List.cons_append,
      List.nil_append] at hplain ⊢
    simp only [pyFloat?]
    rw [pyStrip_no_space _ hplain, splitSign_minus]
    simp only
    rw [htake, hdrop, fracSplit_dot ds hds]
    simp only
    rw [if_neg (fun hand => hipne hand.1)]

theorem pyFloat?_print (q : ℚ) (h : decRepr q = true) :
    pyFloat? (pyStrRat q) = some q := by
  obtain ⟨out, hout⟩ : ∃ out, pyStrRat? q = some out := by
    unfold decRepr at h
    exact Option.isSome_iff_exists.mp h
  rw [pyStrRat_eq_of_some q out hout]
  obtain ⟨ds, hstruct, hdsne, hdsdig, hdsval⟩ := pyStrRat?_struct q out hout
  have hstruct2 : out = (if decide (q.num < 0) then ['-'] else []) ++
      natRepr (q.num.natAbs / q.den) ++ '.' :: ds := by
    rw [hstruct]
    by_cases hs : q.num < 0
    · rw [if_pos hs, if_pos (decide_eq_true hs)]
    · rw [if_neg hs, if_neg (by simpa using hs)]
  rw [hstruct2]
  rw [pyFloat?_of_parts (decide (q.num < 0)) (natRepr (q.num.natAbs / q.den))
    ds (natRepr_digits _) (natRepr_ne_nil _) hdsdig]
  rw [natRepr_digitsVal]
  have hfinal := mkRat_print_eq q ds hdsval
  by_cases hs : q.num < 0
  · rw [if_pos hs] at hfinal
    rw [if_pos (decide_eq_true hs), hfinal]
  · rw [if_neg hs] at hfinal
    rw [if_neg (by simpa using hs), hfinal]

theorem zipWith_and_getElem? :
    ∀ (b k : List Bool) (i : ℕ),
      (List.zipWith and b k)[i]? = some true → b[i]? = some true
  | [], _, _, h => by simp at h
  | _ :: _, [], _, h => by simp at h
  | x :: b, y :: k, 0, h => by
    simp only [List.zipWith, List.getElem?_cons_zero, Option.some_inj] at h ⊢
    cases x <;> simp_all
  | x :: b, y :: k, i + 1, h => by
    simpa using zipWith_and_getElem? b k i (by simpa using h)

theorem numChar_csvPlain (c : Char)
    (h : isDigitC c = true ∨ c = '-' ∨ c = '.') : csvPlain c := by
  rcases h with hd | rfl | rfl
  · obtain ⟨h1, h2⟩ := isDigitC_toNat c hd
    refine ⟨?_, ?_, ?_, ?_⟩ <;>
      (intro e; rw [e] at h1 h2; revert h1 h2; decide)
  · decide
  · decide

theorem cellCsv?_safe (c : Cell) (h : SafeCell c) :
    cellCsv? c = some (fieldOf c) := by
  cases c with
  | null => rfl
  | str s => rfl
  | num q =>
    simp only [SafeCell] at h
    simp only [cellCsv?, fieldOf]
    obtain ⟨out, hout⟩ : ∃ out, pyStrRat? q = some out :=
      Option.isSome_iff_exists.mp h
    rw [hout, pyStrRat_eq_of_some q out hout]

theorem fieldOf_plain (c : Cell) (h : SafeCell c) :
    ∀ ch ∈ fieldOf c, csvPlain ch := by
  cases c with
  | null => intro ch hch; exact absurd hch (List.not_mem_nil ch)
  | str s => exact h
  | num q =>
    intro ch hch
    simp only [SafeCell] at h
    obtain ⟨out, hout⟩ : ∃ out, pyStrRat? q = some out :=
      Option.isSome_iff_exists.mp h
    simp only [fieldOf] at hch
    rw [pyStrRat_eq_of_some q out hout] at hch
    exact numChar_csvPlain ch (numChar_class q out hout ch hch)

theorem writeField_plain (s : Str) (h : ∀ ch ∈ s, csvPlain ch) :
    writeField s = s := by
  unfold writeField
  rw [if_neg]
  unfold needsQuote
  rw [List.any_eq_true]
  rintro ⟨ch, hmem, hch⟩
  obtain ⟨e1, e2, e3, e4⟩ := h ch hmem
  simp only [decide_eq_true_eq] at hch
  rcases hch with e | e | e | e
  · exact e1 e
  · exact e2 e
  · exact e3 e
  · exact e4 e

theorem writeRecord_plain (fs : List Str)
    (h : ∀ f ∈ fs, ∀ ch ∈ f, csvPlain ch) :
    writeRecord fs = intercalateC ',' fs ++ ['\r', '\n'] := by
  unfold writeRecord
  have hm : fs.map writeField = fs := by
    calc fs.map writeField = fs.map id :=
      List.map_congr_left (fun f hf => writeField_plain f (h f hf))
    _ = fs := List.map_id fs
  rw [hm]

theorem seqOpt_map_some {α : Type} (g : α → Option Str) (f : α → Str) :
    ∀ l : List α, (∀ x ∈ l, g x = some (f x)) →
      seqOpt (l.map g) = some (l.map f)
  | [], _ => rfl
  | x :: xs, h => by
    rw [List.map_cons, List.map_cons]
    unfold seqOpt
    rw [h x (List.mem_cons_self x xs),
      seqOpt_map_some g f xs (fun y hy => h y (List.mem_cons_of_mem x hy))]
    rfl

theorem getD_mem_of_lt {α : Type} :
    ∀ (l : List α) (i : ℕ) (d : α), i < l.length → l.getD i d ∈ l
  | [], i, d, h => by simp at h
  | a :: t, 0, d, _ => List.mem_cons_self a t
  | a :: t, n + 1, d, h =>
    List.mem_cons_of_mem a (getD_mem_of_lt t n d (by simpa using h))

theorem rowFieldsOf_spec (df : DataFrame) (i : ℕ) (hwf : df.WF)
    (hi : i < df.nRows)
    (hcells : ∀ p ∈ df.cols, ∀ cell ∈ p.2, SafeCell cell) :
    rowFieldsOf df i = some (fieldsRow df i) := by
  unfold rowFieldsOf fieldsRow
  apply seqOpt_map_some
  intro p hp
  have hlen : i < p.2.length := by rw [hwf.2 p hp]; exact hi
  have hget : p.2.get? i = some (p.2.getD i .null) := by
    rw [List.get?_eq_getElem?, List.getD_eq_getElem?_getD,
      List.getElem?_eq_getElem hlen]
    rfl
  rw [hget, Option.some_bind]
  exact cellCsv?_safe _ (hcells p hp _ (getD_mem_of_lt p.2 i Cell.null hlen))

theorem rowsFromAux_spec (df : DataFrame) :
    ∀ (n i : ℕ), (∀ j, i ≤ j → j < i + n →
        rowFieldsOf df j = some (fieldsRow df j)) →
      rowsFromAux df i n =
        some ((List.range' i n).map (fun j => writeRecord (fieldsRow df j)))
  | 0, i, _ => rfl
  | n + 1, i, h => by
    unfold rowsFromAux
    rw [h i (le_refl i) (by omega)]
    rw [rowsFromAux_spec df n (i + 1) (fun j h1 h2 => h j (by omega) (by omega))]
    rw [List.range'_succ]
    rfl

theorem to_csv?_spec (df : DataFrame) (hwf : df.WF)
    (hcells : ∀ p ∈ df.cols, ∀ cell ∈ p.2, SafeCell cell) :
    to_csv? df = some (writeRecord df.names ++
      ((List.range' 0 df.nRows).map
        (fun j => writeRecord (fieldsRow df j))).flatten) := by
  unfold to_csv?
  rw [rowsFromAux_spec df df.nRows 0
    (fun j _ h2 => rowFieldsOf_spec df j hwf (by omega) hcells)]
  rfl

-- reader side: splitting the emitted text back into lines and fields
theorem splitOnC_ne_nil (sep : Char) :
    ∀ l : Str, splitOnC sep l ≠ []
  | [] => by simp [splitOnC]
  | c :: cs => by
    unfold splitOnC
    cases splitOnC sep cs <;> by_cases hc : c = sep <;> simp [hc]

theorem splitOnC_no_sep (sep : Char) :
    ∀ l : Str, (∀ c ∈ l, c ≠ sep) → splitOnC sep l = [l]
  | [], _ => rfl
  | c :: cs, h => by
    have hne : c ≠ sep := h c (List.mem_cons_self c cs)
    rw [show splitOnC sep (c :: cs) = match splitOnC sep cs with
      | [] => if c = sep then [[], []] else [[c]]
      | f :: fs => if c = sep then [] :: f :: fs else (c :: f) :: fs
      from rfl]
    rw [splitOnC_no_sep sep cs (fun x hx => h x (List.mem_cons_of_mem c hx))]
    simp [hne]

theorem splitOnC_append_sep (sep : Char) :
    ∀ (l rest : Str), (∀ c ∈ l, c ≠ sep) →
      splitOnC sep (l ++ sep :: rest) = l :: splitOnC sep rest
  | [], rest, _ => by
    rw [List.nil_append]
    rw [show splitOnC sep (sep :: rest) = match splitOnC sep rest with
      | [] => if sep = sep then [[], []] else [[sep]]
      | f :: fs => if sep = sep then [] :: f :: fs else (sep :: f) :: fs
      from rfl]
    cases hs : splitOnC sep rest with
    | nil => exact absurd hs (splitOnC_ne_nil sep rest)
    | cons f fs => simp
  | c :: cs, rest, h => by
    have hne : c ≠ sep := h c (List.mem_cons_self c cs)
    rw [List.cons_append]
    rw [show splitOnC sep (c :: (cs ++ sep :: rest)) =
      match splitOnC sep (cs ++ sep :: rest) with
      | [] => if c = sep then [[], []] else [[c]]
      | f :: fs => if c = sep then [] :: f :: fs else (c :: f) :: fs
      from rfl]
    rw [splitOnC_append_sep sep cs rest
      (fun x hx => h x (List.mem_cons_of_mem c hx))]
    simp [hne]

theorem intercalateC_two_ne_nil (sep : Char) (f g : Str) (rest : List Str) :
    intercalateC sep (f :: g :: rest) ≠ [] := by
  unfold intercalateC
  cases f <;> simp

theorem countOcc_no (ch : Char) (l : Str) (h : ∀ c ∈ l, c ≠ ch) :
    countOcc ch l = 0 := by
  unfold countOcc
  rw [List.filter_eq_nil_iff.mpr (fun c hc => by
    simp only [decide_eq_true_eq]
    exact h c hc)]
  rfl

theorem countOcc_append (ch : Char) (a b : Str) :
    countOcc ch (a ++ b) = countOcc ch a + countOcc ch b := by
  unfold countOcc
  rw [List.filter_append, List.length_append]

theorem countOcc_intercalate (sep : Char) :
    ∀ parts : List Str, parts ≠ [] → (∀ p ∈ parts, ∀ c ∈ p, c ≠ sep) →
      countOcc sep (intercalateC sep parts) = parts.length - 1
  | [], h, _ => absurd rfl h
  | [f], _, hp => by
    unfold intercalateC
    rw [countOcc_no sep f (hp f (List.mem_singleton.mpr rfl))]
    simp
  | f :: g :: rest, _, hp => by
    rw [show intercalateC sep (f :: g :: rest) =
      f ++ sep :: intercalateC sep (g :: rest) from rfl]
    rw [countOcc_append, countOcc_no sep f (hp f (List.mem_cons_self _ _))]
    rw [show countOcc sep (sep :: intercalateC sep (g :: rest)) =
      1 + countOcc sep (intercalateC sep (g :: rest)) from by
        unfold countOcc
        rw [List.filter_cons, if_pos (by simp)]
        simp [Nat.add_comm]]
    rw [countOcc_intercalate sep (g :: rest) (by simp)
      (fun p hm => hp p (List.mem_cons_of_mem f hm))]
    simp only [List.length_cons, Nat.zero_add]
    omega

theorem splitOnC_intercalateC (sep : Char) :
    ∀ parts : List Str, parts ≠ [] →
      (∀ p ∈ parts, ∀ c ∈ p, c ≠ sep) →
      splitOnC sep (intercalateC sep parts) = parts
  | [], h, _ => absurd rfl h
  | [f], _, hfree => by
    unfold intercalateC
    exact splitOnC_no_sep sep f (hfree f (List.mem_singleton.mpr rfl))
  | f :: g :: rest, _, hfree => by
    rw [show intercalateC sep (f :: g :: rest) =
      f ++ sep :: intercalateC sep (g :: rest) from rfl]
    rw [splitOnC_append_sep sep f _ (hfree f (List.mem_cons_self _ _))]
    rw [splitOnC_intercalateC sep (g :: rest) (by simp)
      (fun p hm => hfree p (List.mem_cons_of_mem f hm))]

theorem intercalateC_chars (sep : Char) :
    ∀ (parts : List Str) (c : Char), c ∈ intercalateC sep parts →
      c = sep ∨ ∃ p ∈ parts, c ∈ p
  | [], c, hc => absurd hc (List.not_mem_nil c)
  | [f], c, hc => Or.inr ⟨f, List.mem_singleton.mpr rfl, hc⟩
  | f :: g :: rest, c, hc => by
    rw [show intercalateC sep (f :: g :: rest) =
      f ++ sep :: intercalateC sep (g :: rest) from rfl] at hc
    rcases List.mem_append.mp hc with h1 | h1
    · exact Or.inr ⟨f, List.mem_cons_self _ _, h1⟩
    · rcases List.mem_cons.mp h1 with rfl | h2
      · exact Or.inl rfl
      · rcases intercalateC_chars sep (g :: rest) c h2 with h3 | ⟨p, hp, hcp⟩
        · exact Or.inl h3
        · exact Or.inr ⟨p, List.mem_cons_of_mem f hp, hcp⟩

theorem filter_cr_records (lines : List Str)
    (h : ∀ l ∈ lines, ∀ c ∈ l, c ≠ '\r') :
    ((lines.map (fun l => l ++ ['\r', '\n'])).flatten).filter
      (fun c => c ≠ '\r') = (lines.map (fun l => l ++ ['\n'])).flatten := by
  induction lines with
  | nil => rfl
  | cons l ls ih =>
    rw [List.map_cons, List.flatten_cons, List.filter_append,
      List.map_cons, List.flatten_cons]
    rw [ih (fun x hx => h x (List.mem_cons_of_mem l hx))]
    congr 1
    rw [List.filter_append]
    rw [List.filter_eq_self.mpr (fun c hc => by
      simp only [decide_eq_true_eq]
      exact h l (List.mem_cons_self l ls) c hc)]
    rfl

theorem splitOnC_records (lines : List Str)
    (h : ∀ l ∈ lines, ∀ c ∈ l, c ≠ '\n') :
    splitOnC '\n' ((lines.map (fun l => l ++ ['\n'])).flatten) =
      lines ++ [[]] := by
  induction lines with
  | nil => rfl
  | cons l ls ih =>
    rw [List.map_cons, List.flatten_cons]
    rw [show (l ++ ['\n']) ++ (ls.map (fun x => x ++ ['\n'])).flatten =
      l ++ '\n' :: (ls.map (fun x => x ++ ['\n'])).flatten from by
        rw [List.append_assoc]; rfl]
    rw [splitOnC_append_sep '\n' l _ (h l (List.mem_cons_self l ls))]
    rw [ih (fun x hx => h x (List.mem_cons_of_mem l hx))]
    rfl

theorem csvLines_records (lines : List Str)
    (h : ∀ l ∈ lines, ∀ c ∈ l, c ≠ '\n' ∧ c ≠ '\r') :
    csvLines ((lines.map (fun l => l ++ ['\r', '\n'])).flatten) = lines := by
  unfold csvLines
  rw [filter_cr_records lines (fun l hl c hc => (h l hl c hc).2)]
  rw [splitOnC_records lines (fun l hl c hc => (h l hl c hc).1)]
  rw [if_pos (List.getLast?_concat lines)]
  exact List.dropLast_concat

theorem csvRecord_intercalate :
    ∀ fs : List Str, 2 ≤ fs.length → (∀ p ∈ fs, ∀ c ∈ p, c ≠ ',') →
      csvRecord ',' (intercalateC ',' fs) = fs
  | [], h2, _ => by simp at h2
  | [f], h2, _ => by simp at h2
  | f :: g :: rest, _, hfree => by
    unfold csvRecord
    rw [if_neg (intercalateC_two_ne_nil ',' f g rest)]
    exact splitOnC_intercalateC ',' (f :: g :: rest) (by simp) hfree

theorem pyStrRat_ne_nil (q : ℚ) (h : decRepr q = true) :
    pyStrRat q ≠ [] := by
  obtain ⟨out, hout⟩ : ∃ out, pyStrRat? q = some out :=
    Option.isSome_iff_exists.mp h
  rw [pyStrRat_eq_of_some q out hout]
  obtain ⟨ds, hstruct, _, _, _⟩ := pyStrRat?_struct q out hout
  rw [hstruct]
  intro he
  rcases List.append_eq_nil.mp he with ⟨h1, h2⟩
  rcases List.append_eq_nil.mp h1 with ⟨_, h3⟩
  exact natRepr_ne_nil _ h3

theorem convertField_fieldOf (c : Cell) (h : SafeCell c) :
    convertField '.' (fieldOf c) = reCell c := by
  cases c with
  | null => rfl
  | str s =>
    cases s with
    | nil => rfl
    | cons ch cs =>
      simp only [fieldOf, reCell]
      unfold convertField
      rw [if_neg (by simp)]
      rw [if_neg (by simp)]
  | num q =>
    simp only [SafeCell] at h
    simp only [fieldOf, reCell]
    unfold convertField
    rw [if_neg (pyStrRat_ne_nil q h)]
    rw [if_neg (by simp)]
    simp only [pyFloat?_print q h]

theorem idxOf_getElem :
    ∀ (l : List Str) (k : ℕ) (hk : k < l.length), l.Nodup →
      idxOf (l[k]) l = k
  | [], k, hk, _ => by simp at hk
  | a :: t, 0, _, _ => by simp [idxOf]
  | a :: t, k + 1, hk, hnd => by
    have hk' : k < t.length := by simpa using hk
    have hne : a ≠ t[k] := by
      intro e
      exact (List.nodup_cons.mp hnd).1 (e ▸ List.getElem_mem hk')
    rw [show (a :: t)[k + 1] = t[k] from by simp]
    unfold idxOf
    rw [if_neg hne]
    rw [idxOf_getElem t k hk' (List.nodup_cons.mp hnd).2]

theorem range'_map_getD {α β : Type} (g : α → β) (d : α) (l : List α) :
    (List.range' 0 l.length).map (fun i => g (l.getD i d)) = l.map g := by
  have key : ∀ (t : List α) (s : ℕ),
      (List.range' s t.length).map (fun i => g (t.getD (i - s) d)) =
        t.map g := by
    intro t
    induction t with
    | nil => intro s; rfl
    | cons a t2 ih =>
      intro s
      rw [List.length_cons, List.range'_succ, List.map_cons, List.map_cons]
      congr 1
      · rw [Nat.sub_self]
        rfl
      · rw [← ih (s + 1)]
        apply List.map_congr_left
        intro i hi
        have his : s + 1 ≤ i := (List.mem_range'_1.mp hi).1
        have h1 : i - s = (i - (s + 1)) + 1 := by omega
        rw [h1]
        rfl
  have h0 := key l 0
  simpa using h0



theorem getD_map_of_lt {α β : Type} (f : α → β) (l : List α) (k : ℕ)
    (d : β) (hk : k < l.length) : (l.map f).getD k d = f (l[k]) := by
  rw [List.getD_eq_getElem?_getD, List.getElem?_map,
    List.getElem?_eq_getElem hk]
  rfl

theorem flatMap_all_singleton {α β : Type} (p : α → Prop) [DecidablePred p]
    (f : α → β) (l : List α) (hall : ∀ r ∈ l, p r) :
    (l.flatMap (fun r => if p r then [f r] else [])) = l.map f := by
  rw [flatMap_if_singleton]
  rw [List.filter_eq_self.mpr (fun r hr => by
    simp only [decide_eq_true_eq]
    exact hall r hr)]

theorem from_rows_roundtrip (df : DataFrame) (hwf : df.WF)
    (hcells : ∀ p ∈ df.cols, ∀ cell ∈ p.2, SafeCell cell) :
    DataFrame_from_rows df.names
      ((List.range' 0 df.nRows).map (fun j => fieldsRow df j)) '.' =
      ⟨df.cols.map (fun p => (p.1, p.2.map reCell))⟩ := by
  unfold DataFrame_from_rows
  congr 1
  rw [uniqKeys_of_nodup df.names hwf.1]
  have hlen : df.names.length = df.cols.length := List.length_map _ _
  apply List.ext_getElem
  · simp [DataFrame.names]
  · intro k h1 h2
    rw [List.getElem_map, List.getElem_map]
    have hkn : k < df.names.length := by simpa using h1
    have hkc : k < df.cols.length := by omega
    have hnamek : df.names[k] = (df.cols[k]).1 := by
      unfold DataFrame.names
      rw [List.getElem_map]
    have hidx : idxOf (df.names[k]) df.names = k := idxOf_getElem df.names k hkn hwf.1
    have hcolmem : df.cols[k] ∈ df.cols := List.getElem_mem hkc
    have hcollen : (df.cols[k]).2.length = df.nRows := hwf.2 _ hcolmem
    refine Prod.ext hnamek ?_
    show ((List.range' 0 df.nRows).map (fun j => fieldsRow df j)).flatMap
        (fun r => rowContrib '.' df.names r (df.names[k])) =
      ((df.cols[k]).2.map reCell)
    have hcontrib : ∀ r ∈ (List.range' 0 df.nRows).map (fun j => fieldsRow df j),
        rowContrib '.' df.names r (df.names[k]) =
          if idxOf (df.names[k]) df.names < r.length
          then [convertField '.' (r.getD (idxOf (df.names[k]) df.names) [])]
          else [] :=
      fun r _ => rowContrib_nodup '.' df.names r _ hwf.1
        (by rw [hnamek]; exact List.mem_map.mpr ⟨df.cols[k], hcolmem, rfl⟩)
    rw [List.flatMap_congr hcontrib]
    rw [hidx]
    have hrowlen : ∀ r ∈ (List.range' 0 df.nRows).map (fun j => fieldsRow df j),
        k < r.length := by
      intro r hr
      rcases List.mem_map.mp hr with ⟨j, _, rfl⟩
      unfold fieldsRow
      rw [List.length_map]
      exact hkc
    rw [flatMap_all_singleton _ _ _ hrowlen]
    rw [List.map_map]
    have hmapval : ∀ j ∈ List.range' 0 df.nRows,
        ((fun r => convertField '.' (r.getD k [])) ∘ fun j => fieldsRow df j) j
          = reCell ((df.cols[k]).2.getD j Cell.null) := by
      intro j hj
      have hjn : j < df.nRows := by
        have := List.mem_range'_1.mp hj
        omega
      show convertField '.' ((fieldsRow df j).getD k []) = _
      unfold fieldsRow
      rw [getD_map_of_lt _ _ _ _ hkc]
      exact convertField_fieldOf _ (hcells _ hcolmem _
        (getD_mem_of_lt _ j Cell.null (by rw [hcollen]; exact hjn)))
    rw [List.map_congr_left hmapval]
    rw [show df.nRows = (df.cols[k]).2.length from hcollen.symm]
    exact range'_map_getD reCell Cell.null (df.cols[k]).2



/-! ## Claims -/

/-- C3 corrected: conversion tolerance at the cell level — an empty
field becomes null; a field whose numeric conversion (after
decimal-separator replacement) fails is kept as the replaced string,
which coincides with the original field text exactly when the decimal
separator is `'.'` (the counterexample shows they differ for `','`). -/
theorem claim_C3_conversion (decimal : Char) (val : Str)
    (hfail : pyFloat? (if decimal ≠ '.' then pyReplaceChar decimal '.' val
      else val) = none) :
    (val = [] → convertField decimal val = .null) ∧
    (val ≠ [] → convertField decimal val =
      .str (if decimal ≠ '.' then pyReplaceChar decimal '.' val else val)) ∧
    (decimal = '.' → val ≠ [] → convertField decimal val = .str val) := by
  refine ⟨?_, ?_, ?_⟩
  · intro h
    unfold convertField
    rw [if_pos h]
  · intro h
    unfold convertField
    rw [if_neg h]
    simp only [hfail]
  · intro hdec h
    unfold convertField
    rw [if_neg h]
    subst hdec
    rw [if_neg (by simp)] at hfail
    simp only [if_neg (show ¬('.' ≠ '.') by simp), hfail]

/-- Witness for C3's amended theorem: the German-dialect field `"x,y"`
is kept as the replaced string `"x.y"`. -/
theorem claim_C3_conversion_witness :
    convertField ',' (strOf "x,y") = .str (strOf "x.y") := by
  have h := (claim_C3_conversion ',' (strOf "x,y") (by decide)).2.1 (by decide)
  rw [h]
  decide

/-- C4 corrected: ingestion never fails on row shape — for distinct
headers, the column for header `h` collects the converted field at
`h`'s position from exactly those rows long enough to reach it, so a
short row leaves trailing columns shorter (ragged table) and surplus
fields are dropped. -/
theorem claim_C4_row_shape (headers : List Str) (rows : List (List Str))
    (decimal : Char) (h : Str) (hnd : headers.Nodup) (hmem : h ∈ headers) :
    ∃ col, (DataFrame_from_rows headers rows decimal).getCol? h = some col ∧
      col = (rows.filter (fun r => idxOf h headers < r.length)).map
        (fun r => convertField decimal (r.getD (idxOf h headers) [])) ∧
      col.length =
        (rows.filter (fun r => idxOf h headers < r.length)).length := by
  refine ⟨_, getCol?_from_rows headers rows decimal h hnd hmem, rfl, ?_⟩
  rw [List.length_map]

/-- Witness for C4's amended theorem: on `"A,B\n1\n2,3"`, column `B`
holds the one entry contributed by the full-length row. -/
theorem claim_C4_row_shape_witness :
    ∃ col, (DataFrame_from_rows [strOf "A", strOf "B"]
        [[strOf "1"], [strOf "2", strOf "3"]] '.').getCol? (strOf "B") =
        some col ∧
      col = ([[strOf "2", strOf "3"]].map
        (fun r => convertField '.' (r.getD 1 []))) ∧
      col.length = 1 := by
  have h := claim_C4_row_shape [strOf "A", strOf "B"]
    [[strOf "1"], [strOf "2", strOf "3"]] '.' (strOf "B")
    (by decide) (by decide)
  obtain ⟨col, h1, h2, h3⟩ := h
  exact ⟨col, h1, by rw [h2]; decide, by rw [h3]; decide⟩

/-- C5: ingesting the bytes `"A;B\n1,23;4,56\n7,89;0,12"` detects the
`;`/`,` German dialect and yields columns `[A, B]` with
`A = [1.23, 7.89]` and `B = [4.56, 0.12]` as numeric values. -/
theorem claim_C5_german_scenario :
    try_read_csv (strOf "A;B\n1,23;4,56\n7,89;0,12") =
      some ⟨[(strOf "A", [.num (mkRat 123 100), .num (mkRat 789 100)]),
             (strOf "B", [.num (mkRat 456 100), .num (mkRat 12 100)])]⟩ := by
  decide

/-- C2 counterexample: with category `" "` (whitespace-only, hence empty
after trimming), subcategory `"x"` and the all-true mask on a one-row
table, the handler is not a no-op — it overwrites both tag cells and
reports one tagged row — refuting "empty after trimming ⇒ no-op". -/
theorem claim_C2_counterexample :
    pyStrip (strOf " ") = [] ∧
    tagRows c2df [true] (strOf " ") (strOf "x") ≠ (c2df, 0) ∧
    (tagRows c2df [true] (strOf " ") (strOf "x")).2 = 1 ∧
    (tagRows c2df [true] (strOf " ") (strOf "x")).1.getCol?
        (strOf "Subcategory") = some [.str (strOf "x")] := by
  decide

/-- C3 counterexample: ingesting `"A;B\n1,23;x,y"` (German dialect), the
field `"x,y"` fails numeric conversion and the held cell is the
replaced text `"x.y"`, not the original field text `"x,y"`. -/
theorem claim_C3_counterexample :
    try_read_csv (strOf "A;B\n1,23;x,y") =
      some ⟨[(strOf "A", [.num (mkRat 123 100)]),
             (strOf "B", [.str (strOf "x.y")])]⟩ ∧
    strOf "x.y" ≠ strOf "x,y" := by
  decide

/-- C4 counterexample: the data row `"1"` of `"A,B\n1\n2,3"` has one
field against two header columns, yet `read_csv` reports no failure and
returns a table whose columns have lengths 2 and 1. -/
theorem claim_C4_counterexample :
    read_csv (strOf "A,B\n1\n2,3") ',' '.' =
      ⟨[(strOf "A", [.num 1, .num 2]), (strOf "B", [.num 3])]⟩ ∧
    ¬ (read_csv (strOf "A,B\n1\n2,3") ',' '.').WF := by
  decide

/-- C9 counterexample: the held table after ingestion, tag-column
normalization and tagging carries the empty-string Category cell of the
untagged second row; its own export re-ingests that cell as null, so
the round trip does not reproduce every cell value. -/
theorem claim_C9_counterexample :
    c9Re.isSome ∧ c9Re ≠ some c9Held ∧
    c9Held.getCol? (strOf "Category") =
      some [.str (strOf "Private"), .str []] ∧
    (c9Re.getD ⟨[]⟩).getCol? (strOf "Category") =
      some [.str (strOf "Private"), .null] := by
  decide

/-- C1: with trimmed-non-empty category and subcategory strings and a
mask of the row length with at least one true entry, tagging sets
`Category` to the trimmed category and `Subcategory` to the trimmed
subcategory exactly on the mask-true rows, keeps every mask-false cell
and every other column unchanged, preserves the column layout, and
reports the number of true mask entries. -/
theorem claim_C1_tag_frame (df : DataFrame) (mask : List Bool)
    (cat sub : Str) (colC colS : List Cell)
    (hC : df.getCol? (strOf "Category") = some colC)
    (hS : df.getCol? (strOf "Subcategory") = some colS)
    (hmC : mask.length = colC.length) (hmS : mask.length = colS.length)
    (hcat : pyStrip cat ≠ []) (hsub : pyStrip sub ≠ [])
    (hany : mask.any id = true) :
    (tagRows df mask cat sub).2 = countTrue mask ∧
    (tagRows df mask cat sub).1.names = df.names ∧
    (∃ colC', (tagRows df mask cat sub).1.getCol? (strOf "Category") =
        some colC' ∧ colC'.length = colC.length ∧
      ∀ (i : ℕ) (m : Bool) (c : Cell), mask[i]? = some m → colC[i]? = some c →
        colC'[i]? = some (if m then Cell.str (pyStrip cat) else c)) ∧
    (∃ colS', (tagRows df mask cat sub).1.getCol? (strOf "Subcategory") =
        some colS' ∧ colS'.length = colS.length ∧
      ∀ (i : ℕ) (m : Bool) (c : Cell), mask[i]? = some m → colS[i]? = some c →
        colS'[i]? = some (if m then Cell.str (pyStrip sub) else c)) ∧
    (∀ c, c ≠ strOf "Category" → c ≠ strOf "Subcategory" →
      (tagRows df mask cat sub).1.getCol? c = df.getCol? c) := by
  have hcat' : cat ≠ [] := by
    intro h; apply hcat; rw [h]; rfl
  have hsub' : sub ≠ [] := by
    intro h; apply hsub; rw [h]; rfl
  have hcond : cat ≠ [] ∧ sub ≠ [] ∧ mask.any id = true := ⟨hcat', hsub', hany⟩
  have hne : strOf "Category" ≠ strOf "Subcategory" := by decide
  unfold tagRows
  rw [if_pos hcond]
  refine ⟨rfl, ?_, ?_, ?_, ?_⟩
  · rw [names_setMasked, names_setMasked]
  · refine ⟨applyMask mask (Cell.str (pyStrip cat)) colC, ?_, ?_, ?_⟩
    · rw [getCol?_setMasked_ne _ _ _ _ _ hne, getCol?_setMasked_self, hC]
      rfl
    · exact applyMask_length _ _ _ hmC
    · intro i m c him hic
      exact applyMask_getElem? _ mask colC i m c him hic
  · refine ⟨applyMask mask (Cell.str (pyStrip sub)) colS, ?_, ?_, ?_⟩
    · rw [getCol?_setMasked_self, getCol?_setMasked_ne _ _ _ _ _ hne.symm, hS]
      rfl
    · exact applyMask_length _ _ _ hmS
    · intro i m c him hic
      exact applyMask_getElem? _ mask colS i m c him hic
  · intro c hc hs
    rw [getCol?_setMasked_ne _ _ _ _ _ hs, getCol?_setMasked_ne _ _ _ _ _ hc]

/-- Witness for C1: applying the tag on `c1df` with mask `[true, false]`
reports one tagged row and keeps the column layout. -/
theorem claim_C1_witness :
    (tagRows c1df [true, false] (strOf " Private ") (strOf "ent")).2 =
      countTrue [true, false] ∧
    (tagRows c1df [true, false] (strOf " Private ") (strOf "ent")).1.names =
      c1df.names :=
  have h := claim_C1_tag_frame c1df [true, false]
    (strOf " Private ") (strOf "ent")
    [.str [], .str []] [.str [], .str []]
    (by decide) (by decide) (by decide) (by decide)
    (by decide) (by decide) (by decide)
  ⟨h.1, h.2.1⟩

/-- C2 corrected: the handler's guard is Python truthiness before
stripping — the operation is a no-op (table unchanged, zero reported)
when the category or subcategory string is empty before trimming, or
the mask has no true entry; a whitespace-only string passes the guard
(see the counterexample). -/
theorem claim_C2_noop (df : DataFrame) (mask : List Bool) (cat sub : Str)
    (h : cat = [] ∨ sub = [] ∨ mask.any id = false) :
    tagRows df mask cat sub = (df, 0) := by
  unfold tagRows
  rw [if_neg]
  rintro ⟨h1, h2, h3⟩
  rcases h with h | h | h
  · exact h1 h
  · exact h2 h
  · rw [h3] at h; exact Bool.noConfusion h

/-- Witness for C2's amended theorem: the empty category string on a
one-row table leaves the table unchanged and reports zero. -/
theorem claim_C2_witness :
    tagRows c2df [true] [] (strOf "x") = (c2df, 0) :=
  claim_C2_noop c2df [true] [] (strOf "x") (Or.inl rfl)

/-- C6: `untagged_mask` marks a row true exactly when the row's
`Category` value, null-coerced to the empty string and
whitespace-trimmed, is empty; over Category values
`["", "x", " ", null]` it yields `[true, false, true, true]`. -/
theorem claim_C6_untagged (df : DataFrame) (colC : List Cell)
    (h : df.getCol? (strOf "Category") = some colC) :
    (∃ m, untagged_mask df = some m ∧ m.length = colC.length ∧
      ∀ (i : ℕ) (c : Cell), colC[i]? = some c →
        (m[i]? = some true ↔ pyStrip (cellAstype c) = [])) ∧
    untagged_mask ⟨[(strOf "Category",
        [.str [], .str (strOf "x"), .str (strOf " "), .null])]⟩ =
      some [true, false, true, true] := by
  constructor
  · refine ⟨colC.map untaggedCell, ?_, by simp, ?_⟩
    · unfold untagged_mask
      rw [h]
      rfl
    · intro i c hic
      rw [List.getElem?_map, hic]
      simp [untaggedCell]
  · decide

/-- Witness for C6 at the scenario table itself. -/
theorem claim_C6_witness :
    untagged_mask ⟨[(strOf "Category",
        [.str [], .str (strOf "x"), .str (strOf " "), .null])]⟩ =
      some [true, false, true, true] :=
  (claim_C6_untagged
    ⟨[(strOf "Category",
        [.str [], .str (strOf "x"), .str (strOf " "), .null])]⟩
    [.str [], .str (strOf "x"), .str (strOf " "), .null]
    (by decide)).2

/-- C7: a token of a cell survives `most_common`'s normalisation iff it
is at least `min_len` long and its uppercased form is outside the fixed
stop-word set (tokens come out of the uppercased, punctuation-stripped,
whitespace-split text, so they are their own uppercase); over the
column `["the cat", "cat and dog", "dog"]` with `k = 2` the top two
keywords are `CAT` and `DOG`, each with count 2 (`THE`, `AND` dropped
as stop-words). -/
theorem claim_C7_tokens :
    (∀ (minLen : ℕ) (txt t : Str), t ∈ normalise minLen txt ↔
      (t ∈ splitWs (subNonWord (pyUpper txt)) ∧ pyUpper t ∉ STOPWORDS ∧
        minLen ≤ t.length)) ∧
    most_common [.str (strOf "the cat"), .str (strOf "cat and dog"),
        .str (strOf "dog")] 2 2 =
      [(strOf "CAT", 2, mkRat 1 2), (strOf "DOG", 2, mkRat 1 2)] := by
  constructor
  · intro minLen txt t
    unfold normalise
    rw [List.mem_filter]
    constructor
    · rintro ⟨h1, h2⟩
      simp only [decide_eq_true_eq] at h2
      refine ⟨h1, ?_, h2.2⟩
      rw [pyUpper_token_fixed txt t h1]
      exact h2.1
    · rintro ⟨h1, h2, h3⟩
      refine ⟨h1, ?_⟩
      simp only [decide_eq_true_eq]
      rw [pyUpper_token_fixed txt t h1] at h2
      exact ⟨h2, h3⟩
  · decide

/-- C8: the combined search filter with the empty keyword is exactly
`untagged_mask`, and with any keyword a row selected by the combined
mask is selected by `untagged_mask` — keyword filtering only narrows. -/
theorem claim_C8_empty_keyword (df : DataFrame) (searchCol : Str) :
    search_mask df searchCol [] = untagged_mask df ∧
    (∀ (kw : Str) (m b : List Bool) (i : ℕ), search_mask df searchCol kw = some m →
      untagged_mask df = some b → m[i]? = some true → b[i]? = some true) := by
  constructor
  · unfold search_mask
    cases untagged_mask df <;> rfl
  · intro kw m b i hsm hum hi
    unfold search_mask at hsm
    rw [hum] at hsm
    simp only [Option.some_bind] at hsm
    by_cases hkw : kw = []
    · rw [if_pos hkw] at hsm
      injection hsm with hsm
      rw [hsm]
      exact hi
    · rw [if_neg hkw] at hsm
      cases hcol : df.getCol? searchCol with
      | none => rw [hcol] at hsm; exact Option.noConfusion hsm
      | some col =>
        rw [hcol] at hsm
        simp only [Option.map_some'] at hsm
        injection hsm with hsm
        rw [← hsm] at hi
        exact zipWith_and_getElem? b (keyword_mask col kw) i hi

/-- Witness for C8 on `c8df`, search column `B`, keyword `"a"`. -/
theorem claim_C8_witness :
    search_mask c8df (strOf "B") [] = untagged_mask c8df ∧
    [true, false][0]? = some true :=
  ⟨(claim_C8_empty_keyword c8df (strOf "B")).1,
   (claim_C8_empty_keyword c8df (strOf "B")).2 (strOf "a")
     [true, false] [true, false] 0 (by decide) (by decide) (by decide)⟩

/-- C10: `untagged_mask` succeeds exactly when the table has a
`Category` column (a missing column is a key-lookup failure), and on a
well-formed table the mask has the table's row count. -/
theorem claim_C10_untagged_safety (df : DataFrame) (hwf : df.WF) :
    ((untagged_mask df).isSome ↔ df.hasCol (strOf "Category") = true) ∧
    ∀ m, untagged_mask df = some m → m.length = df.nRows := by
  constructor
  · unfold untagged_mask
    rw [Option.isSome_map']
    exact getCol?_isSome_iff df (strOf "Category")
  · intro m hm
    unfold untagged_mask at hm
    cases hcol : df.getCol? (strOf "Category") with
    | none => rw [hcol] at hm; exact Option.noConfusion hm
    | some col =>
      rw [hcol] at hm
      simp only [Option.map_some'] at hm
      injection hm with hm
      rw [← hm, List.length_map]
      exact hwf.2 _ (getCol?_mem df _ _ hcol)

/-- Witness for C10 on the one-row table `c2df`. -/
theorem claim_C10_witness :
    ((untagged_mask c2df).isSome ↔ c2df.hasCol (strOf "Category") = true) ∧
    [true].length = c2df.nRows :=
  ⟨(claim_C10_untagged_safety c2df (by decide)).1,
   (claim_C10_untagged_safety c2df (by decide)).2 [true] (by decide)⟩

/-- C9 corrected: re-ingesting the export of a held table maps every
cell through `reCell` — numeric and null cells come back exactly, an
empty-string cell comes back as null, and a string cell whose text
parses as a float (such as a tag `"123"`) comes back as that number;
every other string cell comes back identical — under the scope
conditions of the model: at least two columns, quote/comma/newline-free
names and string cells, numbers printable within the digit fuel, and an
export short enough for the 4096-byte sniffing sample. -/
theorem claim_C9_roundtrip (df : DataFrame) (out : Str)
    (hwf : df.WF) (hn2 : 2 ≤ df.cols.length)
    (hnames : ∀ n ∈ df.names, ∀ c ∈ n, csvPlain c)
    (hcells : ∀ p ∈ df.cols, ∀ cell ∈ p.2, SafeCell cell)
    (hout : to_csv? df = some out) (hlen : out.length ≤ 4096) :
    try_read_csv out =
      some ⟨df.cols.map (fun p => (p.1, p.2.map reCell))⟩ := by
  have hrecs : ∀ fs ∈ df.names ::
      (List.range' 0 df.nRows).map (fun j => fieldsRow df j),
      (∀ f ∈ fs, ∀ ch ∈ f, csvPlain ch) ∧ fs.length = df.cols.length := by
    intro fs hfs
    rcases List.mem_cons.mp hfs with rfl | hm
    · exact ⟨hnames, List.length_map _ _⟩
    · rcases List.mem_map.mp hm with ⟨j, hj, rfl⟩
      have hjn : j < df.nRows := by
        have := List.mem_range'_1.mp hj
        omega
      constructor
      · intro f hf ch hch
        rcases List.mem_map.mp hf with ⟨p, hp, rfl⟩
        refine fieldOf_plain _ ?_ ch hch
        exact hcells p hp _ (getD_mem_of_lt _ j Cell.null
          (by rw [hwf.2 p hp]; exact hjn))
      · unfold fieldsRow
        rw [List.length_map]
  have hspec := to_csv?_spec df hwf hcells
  rw [hout] at hspec
  injection hspec with hspec
  have hout2 : out = (((df.names ::
      (List.range' 0 df.nRows).map (fun j => fieldsRow df j)).map
        (fun fs => intercalateC ',' fs)).map
          (fun l => l ++ ['\r', '\n'])).flatten := by
    rw [hspec, List.map_cons, List.map_cons, List.flatten_cons]
    congr 1
    · exact writeRecord_plain _
        (hrecs df.names (List.mem_cons_self _ _)).1
    · rw [List.map_map, List.map_map]
      apply congrArg
      apply List.map_congr_left
      intro j hj
      exact writeRecord_plain _
        (hrecs (fieldsRow df j)
          (List.mem_cons_of_mem _ (List.mem_map.mpr ⟨j, hj, rfl⟩))).1
  have hlinechars : ∀ l ∈ (df.names ::
      (List.range' 0 df.nRows).map (fun j => fieldsRow df j)).map
        (fun fs => intercalateC ',' fs),
      ∀ c ∈ l, c ≠ '\n' ∧ c ≠ '\r' := by
    intro l hl c hc
    rcases List.mem_map.mp hl with ⟨fs, hfs, rfl⟩
    rcases intercalateC_chars ',' fs c hc with rfl | ⟨p, hp, hcp⟩
    · exact ⟨by decide, by decide⟩
    · have hpl := (hrecs fs hfs).1 p hp c hcp
      exact ⟨hpl.2.2.1, hpl.2.2.2⟩
  have hlines : csvLines out = (df.names ::
      (List.range' 0 df.nRows).map (fun j => fieldsRow df j)).map
        (fun fs => intercalateC ',' fs) := by
    rw [hout2]
    exact csvLines_records _ hlinechars
  have hcount : ∀ l ∈ (df.names ::
      (List.range' 0 df.nRows).map (fun j => fieldsRow df j)).map
        (fun fs => intercalateC ',' fs),
      countOcc ',' l = df.cols.length - 1 := by
    intro l hl
    rcases List.mem_map.mp hl with ⟨fs, hfs, rfl⟩
    have hfs2 := hrecs fs hfs
    rw [countOcc_intercalate ',' fs
      (by intro e; rw [e] at hfs2; simp at hfs2; omega)
      (fun p hp c hc => ((hfs2.1 p hp c hc).1)), hfs2.2]
  have hcons : consistentDelim ((df.names ::
      (List.range' 0 df.nRows).map (fun j => fieldsRow df j)).map
        (fun fs => intercalateC ',' fs)) ',' = true := by
    rw [List.map_cons]
    show (decide (0 < countOcc ',' (intercalateC ',' df.names)) &&
      (((List.range' 0 df.nRows).map (fun j => fieldsRow df j)).map
        (fun fs => intercalateC ',' fs)).all
          (fun l2 => countOcc ',' l2 =
            countOcc ',' (intercalateC ',' df.names))) = true
    rw [Bool.and_eq_true]
    have hhead : countOcc ',' (intercalateC ',' df.names) =
        df.cols.length - 1 :=
      hcount _ (List.mem_map.mpr ⟨df.names, List.mem_cons_self _ _, rfl⟩)
    constructor
    · rw [hhead]
      exact decide_eq_true (by omega)
    · rw [List.all_eq_true]
      intro l2 hl2
      rcases List.mem_map.mp hl2 with ⟨fs, hfs, rfl⟩
      have := hcount (intercalateC ',' fs)
        (List.mem_map.mpr ⟨fs, List.mem_cons_of_mem _ hfs, rfl⟩)
      rw [this, hhead]
      simp
  have htake : out.take 4096 = out := List.take_of_length_le hlen
  have hsniff : sniff? (out.take 4096) = some ',' := by
    rw [htake]
    show (if consistentDelim (csvLines out) ',' then some ','
      else if consistentDelim (csvLines out) ';' then some ';'
      else none) = some ','
    rw [hlines, if_pos hcons]
  have hread : read_csv out ',' '.' =
      ⟨df.cols.map (fun p => (p.1, p.2.map reCell))⟩ := by
    show (match (csvLines out).map (csvRecord ',') with
      | [] => (⟨[]⟩ : DataFrame)
      | headers :: body => DataFrame_from_rows headers body '.') = _
    rw [hlines, List.map_map]
    have hmapr : (df.names ::
        (List.range' 0 df.nRows).map (fun j => fieldsRow df j)).map
          (csvRecord ',' ∘ fun fs => intercalateC ',' fs) =
        df.names :: (List.range' 0 df.nRows).map (fun j => fieldsRow df j) := by
      have hcg : ∀ fs ∈ df.names ::
          (List.range' 0 df.nRows).map (fun j => fieldsRow df j),
          (csvRecord ',' ∘ fun fs => intercalateC ',' fs) fs = id fs := by
        intro fs hfs
        have hfs2 := hrecs fs hfs
        show csvRecord ',' (intercalateC ',' fs) = fs
        exact csvRecord_intercalate fs (by omega)
          (fun p hp c hc => (hfs2.1 p hp c hc).1)
      rw [List.map_congr_left hcg, List.map_id]
    rw [hmapr]
    exact from_rows_roundtrip df hwf hcells
  show (match sniff? (out.take 4096) with
    | none => none
    | some sep => some (read_csv out sep (if sep = ';' then ',' else '.'))) =
      some ⟨df.cols.map (fun p => (p.1, p.2.map reCell))⟩
  rw [hsniff]
  show some (read_csv out ',' '.') = _
  rw [hread]

/-- Witness for C9's amended theorem: `c9tagdf` exports to
`"A,Category,Subcategory\r\n1.0,123,ent\r\n2.0,,\r\n"` and re-ingests
with the tag string `"123"` turned into the number `123`, the
empty-string tag cells turned into nulls, and every other cell
identical. -/
theorem claim_C9_roundtrip_witness :
    try_read_csv (strOf "A,Category,Subcategory\r\n1.0,123,ent\r\n2.0,,\r\n")
      = some ⟨c9tagdf.cols.map (fun p => (p.1, p.2.map reCell))⟩ :=
  claim_C9_roundtrip c9tagdf
    (strOf "A,Category,Subcategory\r\n1.0,123,ent\r\n2.0,,\r\n")
    (by decide) (by decide) (by decide) (by decide) (by decide) (by decide)

end Bilanzieren
